import Mathlib

/-!
Verification of the generative-stories simulation core.

This file gives a shallow embedding, in Lean 4, of the state and operations
of the simulation engine found in `src/environment/environment_manager.py`,
`src/agents/story_agent.py`, `src/agents/overseer_agent.py` and
`src/core/simulation_engine.py`, and proves (or refutes) the frozen claims
about them.  Python floats are modelled as exact rationals (`ℚ`), Python
ints as `Int`/`Nat`, dictionaries as association lists, and the stochastic
draws (`random.random()`) as explicit parameters.
-/

namespace GenStories

/-- Python `dict.get(key, default)` over an association list of rationals. -/
def lookupD (l : List (String × ℚ)) (k : String) (d : ℚ) : ℚ :=
  match l.find? (fun p => decide (p.1 = k)) with
  | some p => p.2
  | none => d

/-! ## Environment: scheduled-event queue and clock
Embedding of `EnvironmentStateManager` (environment_manager.py), restricted
to the temporal system: `current_time`, `scheduled_events`, and the three
operations `schedule_event`, `process_scheduled_events`, `advance_time`.
The event payload is an arbitrary type `α` (Python passes dicts around
without inspecting them here). -/

structure EnvState (α : Type) where
  currentTime : Int
  queue : List (Int × α)
deriving Repr, DecidableEq

/-- `process_scheduled_events` (environment_manager.py lines 114-126):
one pass over the queue, splitting it into the due entries
(`scheduled_time <= current_time`), whose payloads are returned in queue
order, and the remaining entries, which are kept. -/
def processScheduledEvents {α : Type} (s : EnvState α) : List α × EnvState α :=
  let due := s.queue.filter (fun p => decide (p.1 ≤ s.currentTime))
  let remaining := s.queue.filter (fun p => !decide (p.1 ≤ s.currentTime))
  (due.map Prod.snd, { s with queue := remaining })

/-- `schedule_event` (lines 108-112): append `(current_time + delay, event)`
then stable-sort the queue by fire time (Python `list.sort(key=...)`). -/
def scheduleEvent {α : Type} (s : EnvState α) (ev : α) (delay : Int) : EnvState α :=
  { s with queue := ((s.queue ++ [(s.currentTime + delay, ev)]).mergeSort
      (fun a b => decide (a.1 ≤ b.1))) }

/-- `advance_time` (lines 103-106): bump the clock, then drain the queue,
discarding the drained events. -/
def advanceTime {α : Type} (s : EnvState α) (units : Int) : EnvState α :=
  (processScheduledEvents { s with currentTime := s.currentTime + units }).2

/-- The event-queue skeleton of one `run_simulation_step`
(simulation_engine.py lines 86-165): phase 1 drains the queue (those events
are fed to `process_event`), phases 2-8 may call `schedule_event` any
number of times (`scheds` lists the payload/delay pairs in call order),
and phase 9 calls `advance_time(1)`. -/
def runStepEvents {α : Type} (s : EnvState α) (scheds : List (α × Int)) :
    List α × EnvState α :=
  let phase1 := processScheduledEvents s
  let s2 := scheds.foldl (fun st p => scheduleEvent st p.1 p.2) phase1.2
  (phase1.1, advanceTime s2 1)

/-! ## Relationships (story_agent.py / simulation_engine.py) -/

/-- Python dict assignment `d[k] = v` over an association list: overwrite in
place when the key exists, else append. -/
def dictSet (l : List (String × ℚ)) (k : String) (v : ℚ) : List (String × ℚ) :=
  if l.any (fun p => decide (p.1 = k)) then
    l.map (fun p => if p.1 = k then (k, v) else p)
  else l ++ [(k, v)]

/-- `StoryAgent.update_relationship` (story_agent.py lines 193-201):
`new = clamp(current + quality * 0.1, -1, 1)` stored under the other
agent's name; the relationship map is an association list,
missing entries read as `0.0`. -/
def updateRelationship (rels : List (String × ℚ)) (other : String)
    (quality : ℚ) : List (String × ℚ) :=
  let current := lookupD rels other 0
  let change := quality * (1/10)
  let newScore := max (-1) (min 1 (current + change))
  dictSet rels other newScore

/-- The relationship-update slice of
`SimulationEngine.process_agent_interaction` (simulation_engine.py lines
222-225): `relationship_change = positive - negative`, applied
symmetrically to both participants' maps. -/
def applyInteractionRelUpdate
    (initName targName : String)
    (initRels targRels : List (String × ℚ))
    (positive negative : ℚ) :
    List (String × ℚ) × List (String × ℚ) :=
  let relationshipChange := positive - negative
  (updateRelationship initRels targName relationshipChange,
   updateRelationship targRels initName relationshipChange)

/-- The relationship-seeding slice of
`SimulationEngine.introduce_new_character` (simulation_engine.py lines
377-386): for each existing agent, the new agent's map (and, symmetrically,
the existing agent's map) receives the profile's suggested value verbatim
when present, else `0.0`.  Returns the new agent's relationship map. -/
def seedIntroducedRelationships (profileRels : List (String × ℚ))
    (existingNames : List String) : List (String × ℚ) :=
  existingNames.map (fun n =>
    match profileRels.find? (fun p => p.1 == n) with
    | some p => (n, p.2)
    | none => (n, 0))

/-! ## Agent interaction policy (story_agent.py) -/

/-- The fields of `StoryAgent` that `should_initiate_interaction` reads. -/
structure AgentView where
  name : String
  location : String
  personalityTraits : List String
  energyLevel : ℚ
  lastInteractionTime : Option Int
deriving Repr, DecidableEq

/-- The personality-modulated base probability of lines 64-69: 0.3, plus
0.2 for an "outgoing"/"social" trait, minus 0.1 for a "shy"/"introverted"
trait. -/
def personalityBase (traits : List String) : ℚ :=
  let base0 : ℚ := 3/10
  let base1 := if decide ("outgoing" ∈ traits) || decide ("social" ∈ traits)
    then base0 + 2/10 else base0
  if decide ("shy" ∈ traits) || decide ("introverted" ∈ traits)
    then base1 - 1/10 else base1

/-- `StoryAgent.should_initiate_interaction` (story_agent.py lines 48-71).
`draw` is the value of `random.random()`.  The Python guard
`if self.last_interaction_time and current_time - self.last_interaction_time < 2`
tests the *truthiness* of `last_interaction_time`, so both `None` and `0`
skip the cooldown.  The co-location check filters the caller-supplied
`other_agents` without excluding the agent itself. -/
def shouldInitiateInteraction (a : AgentView) (otherAgents : List AgentView)
    (currentTime : Int) (draw : ℚ) : Bool :=
  if (match a.lastInteractionTime with
      | none => false
      | some k => decide (k ≠ 0) && decide (currentTime - k < 2)) then false
  else if decide (a.energyLevel < 3/10) then false
  else if (otherAgents.filter (fun o => decide (o.location = a.location))).isEmpty then
    false
  else
    decide (draw < personalityBase a.personalityTraits)

/-! ## Overseer chapter-close decision (overseer_agent.py) -/

/-- Does `pat` occur at the start of `cs`?  (Used for Python's substring
operator `in` on strings.) -/
def charsStartWith : List Char → List Char → Bool
  | [], _ => true
  | _ :: _, [] => false
  | p :: ps, c :: cs => decide (p = c) && charsStartWith ps cs

/-- Does `pat` occur anywhere in `cs`? -/
def charsContain (pat : List Char) : List Char → Bool
  | [] => charsStartWith pat []
  | c :: cs => charsStartWith pat (c :: cs) || charsContain pat cs

/-- Python's `pat in s` for strings. -/
def strContains (s pat : String) : Bool :=
  charsContain pat.toList s.toList

/-- Python's `l[-n:]`. -/
def lastN {α : Type} (n : Nat) (l : List α) : List α :=
  l.drop (l.length - n)

/-- Python's `max` over a list of rationals (callers guard nonemptiness). -/
def qListMax : List ℚ → ℚ
  | [] => 0
  | [x] => x
  | x :: y :: t => max x (qListMax (y :: t))

/-- An interaction as the chapter-close helpers read it: `content` is the
already-lowercased text, `emotionalIntensity` is
`interaction.get('sentiment', {}).get('emotional_intensity', _)`
(`none` when the sentiment dict or key is missing). -/
structure InteractionRec where
  content : String
  emotionalIntensity : Option ℚ
deriving Repr, DecidableEq

structure PlotPoint where
  step : Int
  significance : ℚ
deriving Repr, DecidableEq

structure EmotionalBeat where
  step : Int
  intensity : ℚ
deriving Repr, DecidableEq

/-- The overseer state read by `should_end_current_chapter`:
the current chapter's content plus, for signals 3 and 4, the key-moment
significances of each tracked character arc (`character_arcs[..]['key_moments']`)
and the significant-moment significances of each tracked relationship pair
(`character_relationship_changes[..]['significant_moments']`). -/
structure OverseerView where
  interactions : List InteractionRec
  plotPoints : List PlotPoint
  emotionalBeats : List EmotionalBeat
  characterArcMoments : List (List ℚ)
  relChangeMoments : List (List ℚ)
deriving Repr, DecidableEq

/-- `OverseerAgent._detect_resolution_moment` (overseer_agent.py lines
390-402): any of the last 3 interactions whose content contains a
resolution keyword. -/
def detectResolutionMoment (interactions : List InteractionRec) : Bool :=
  let recent := lastN 3 interactions
  let resolutionKeywords := ["resolved", "agreed", "peace", "understanding",
    "forgiveness", "solution", "settled"]
  recent.any (fun i => resolutionKeywords.any (fun k => strContains i.content k))

/-- `OverseerAgent._detect_natural_pause` (lines 404-419): average
emotional intensity (default 0.5) of the last 3 interactions below 0.4,
requiring at least 2 of them. -/
def detectNaturalPause (interactions : List InteractionRec) : Bool :=
  let recent := lastN 3 interactions
  if recent.length < 2 then false
  else
    let total := (recent.map (fun i => i.emotionalIntensity.getD (1/2))).sum
    decide (total / (recent.length : ℚ) < 4/10)

/-- The three return shapes of `should_end_current_chapter`: the too-few
branch (no `urgency`/`ending_score` keys), the forced max-length branch,
and the scored branch. -/
inductive ChapterDecision where
  | tooFewInteractions : ChapterDecision
  | maxLengthReached : ChapterDecision
  | scored (endingScore : ℚ) (reasons : List String) : ChapterDecision
deriving Repr, DecidableEq

def ChapterDecision.shouldEnd : ChapterDecision → Bool
  | .tooFewInteractions => false
  | .maxLengthReached => true
  | .scored e _ => decide ((6/10 : ℚ) ≤ e)

def ChapterDecision.urgencyTag : ChapterDecision → Option String
  | .tooFewInteractions => none
  | .maxLengthReached => some "high"
  | .scored e _ =>
      some (if (8/10 : ℚ) ≤ e then "high"
        else if (6/10 : ℚ) ≤ e then "medium" else "low")

/-- Signal 1 (lines 306-313): a plot point within 3 steps whose maximum
significance exceeds the 0.7 threshold. -/
def sigMajorPlotPoint (st : OverseerView) (currentStep : Int) : Bool :=
  let recentPlot := st.plotPoints.filter (fun p => decide (currentStep - p.step ≤ 3))
  !recentPlot.isEmpty
    && decide ((7/10 : ℚ) < qListMax (recentPlot.map PlotPoint.significance))

/-- Signal 2 (lines 315-322): an emotional beat within 2 steps whose
maximum intensity exceeds the 0.8 threshold. -/
def sigEmotionalClimax (st : OverseerView) (currentStep : Int) : Bool :=
  let recentBeats := st.emotionalBeats.filter (fun e => decide (currentStep - e.step ≤ 2))
  !recentBeats.isEmpty
    && decide ((8/10 : ℚ) < qListMax (recentBeats.map EmotionalBeat.intensity))

/-- Signal 3 via `_assess_character_development_in_chapter` (lines
324-328, 358-373): some tracked character arc has a key moment with
significance above 0.6. -/
def sigCharacterDevelopment (st : OverseerView) : Bool :=
  0 < (st.characterArcMoments.filter
    (fun ms => ms.any (fun q => decide ((6/10 : ℚ) < q)))).length

/-- Signal 4 via `_assess_relationship_changes_in_chapter` (lines 330-334,
375-388): some tracked pair has a significant moment above 0.5. -/
def sigRelationshipChanges (st : OverseerView) : Bool :=
  0 < (st.relChangeMoments.filter
    (fun ms => ms.any (fun q => decide ((5/10 : ℚ) < q)))).length

/-- The `ending_score` accumulated on lines 303-344 from the six
independent signals: +0.4, +0.3, +0.2, +0.2, +0.3, +0.1. -/
def chapterEndingScore (st : OverseerView) (currentStep : Int) : ℚ :=
  0 + (if sigMajorPlotPoint st currentStep then 4/10 else 0)
    + (if sigEmotionalClimax st currentStep then 3/10 else 0)
    + (if sigCharacterDevelopment st then 2/10 else 0)
    + (if sigRelationshipChanges st then 2/10 else 0)
    + (if detectResolutionMoment st.interactions then 3/10 else 0)
    + (if detectNaturalPause st.interactions then 1/10 else 0)

def chapterEndingReasons (st : OverseerView) (currentStep : Int) : List String :=
  (if sigMajorPlotPoint st currentStep then ["major_plot_point"] else []) ++
  (if sigEmotionalClimax st currentStep then ["emotional_climax"] else []) ++
  (if sigCharacterDevelopment st then ["character_development"] else []) ++
  (if sigRelationshipChanges st then ["relationship_changes"] else []) ++
  (if detectResolutionMoment st.interactions then ["conflict_resolution"] else []) ++
  (if detectNaturalPause st.interactions then ["natural_pause"] else [])

/-- `OverseerAgent.should_end_current_chapter` (overseer_agent.py lines
289-356), with `chapter_criteria` at their constructed values
(min 8, max 25, plot 0.7, character development 0.6, emotional climax 0.8,
relationship change 0.5). -/
def shouldEndCurrentChapter (st : OverseerView) (currentStep : Int) :
    ChapterDecision :=
  let interactionsCount := st.interactions.length
  if interactionsCount < 8 then .tooFewInteractions
  else if 25 ≤ interactionsCount then .maxLengthReached
  else .scored (chapterEndingScore st currentStep) (chapterEndingReasons st currentStep)

/-! ## Ending conditions and run loop (simulation_engine.py) -/

/-- `SimulationEngine.check_ending_conditions` (lines 446-465); the
overseer's `detect_ending_readiness` and the narrator's `detect_stagnation`
verdicts are passed in as booleans. -/
def checkEndingConditions (currentStep maxTimeSteps : Nat)
    (readiness stagnation : Bool) : Bool :=
  if maxTimeSteps ≤ currentStep then true
  else if readiness then true
  else if stagnation && decide (20 < currentStep) then true
  else false

inductive PyError where
  | typeErrorUnexpectedKeywordArgument (fn kw : String)
  | attributeErrorMissingMethod (cls method : String)
deriving Repr, DecidableEq

/-- `SimulationEngine.conclude_story` (lines 467-476).  It calls
`self.overseer.synthesize_chapter(self.current_step, max_interactions=20)`,
but `OverseerAgent.synthesize_chapter(self, current_step, force_end=False)`
has no `max_interactions` parameter, so Python raises `TypeError` at the
call, before any final chapter is produced.  The argument is the chapter
count; a successful call would return it incremented. -/
def concludeStory (_chaptersSoFar : Nat) : Except PyError Nat :=
  .error (.typeErrorUnexpectedKeywordArgument "synthesize_chapter" "max_interactions")

/-- Phase 5.5 of `run_simulation_step` (simulation_engine.py line 124):
`self.narrator.should_introduce_new_character(...)`.  `NarratorAgent`
(narrator_agent.py) defines no such method — its methods are
`analyze_story_state`, `detect_stagnation`, `evaluate_intervention_need`,
the event-candidate helpers and `get_story_health_summary` — so this
attribute access raises `AttributeError` unconditionally, every step. -/
def narratorShouldIntroduceNewCharacter : Except PyError Bool :=
  .error (.attributeErrorMissingMethod "NarratorAgent"
    "should_introduce_new_character")

/-- The termination-relevant skeleton of one `run_simulation_step` call
(simulation_engine.py lines 86-165), entered with `current_step` already
incremented to `step`.  Phases 1-5 perform no unconditional missing-name
access (the phase-5 narrator methods exist); phase 5.5 evaluates
`narratorShouldIntroduceNewCharacter`; phase 8, when reached, runs
`check_ending_conditions` and on a true result `conclude_story`.  `.ok
true` means the step completed and the loop continues; `.ok false` means
the ending path completed, with the final chapter emitted; `.error` is an
exception escaping `run_simulation_step` (to be caught by
`run_full_simulation`'s blanket `except`, which sits outside the `while`
loop and therefore ends the run). -/
def runSimulationStepSkeleton (step maxTimeSteps : Nat)
    (readiness stagnation : Bool) : Except PyError Bool :=
  match narratorShouldIntroduceNewCharacter with
  | .error e => .error e
  | .ok _ =>
    if checkEndingConditions step maxTimeSteps readiness stagnation then
      match concludeStory 0 with
      | .ok _ => .ok false
      | .error e => .error e
    else .ok true

structure RunResult where
  finalStep : Nat
  finalChapterEmitted : Bool
deriving Repr, DecidableEq

/-- The `run_full_simulation` loop (lines 488-515): while
`current_step < max_time_steps`, increment `current_step` and run one
step; an exception escaping the step is caught outside the loop, ending
the run with no final chapter.  `fuel` encodes the loop guard: it starts
at `max_time_steps` and equals `max_time_steps - current_step`
throughout. -/
def runFrom (readyAt stagAt : Nat → Bool) (maxTimeSteps : Nat) :
    Nat → Nat → RunResult
  | 0, step => { finalStep := step, finalChapterEmitted := false }
  | fuel + 1, step =>
    let s' := step + 1
    match runSimulationStepSkeleton s' maxTimeSteps (readyAt s') (stagAt s') with
    | .error _ => { finalStep := s', finalChapterEmitted := false }
    | .ok false => { finalStep := s', finalChapterEmitted := true }
    | .ok true => runFrom readyAt stagAt maxTimeSteps fuel s'

def runFullSimulation (readyAt stagAt : Nat → Bool) (maxTimeSteps : Nat) :
    RunResult :=
  runFrom readyAt stagAt maxTimeSteps maxTimeSteps 0

/-! ## World state: locations and agent placement
(environment_manager.py `Location`/`EnvironmentStateManager.move_agent`,
story_agent.py `move_to_location`).  `locs` maps each location name to its
`current_agents` (agent names, in insertion order); `agents` maps each
agent name to its `location` field. -/

structure WorldState where
  locs : List (String × List String)
  agents : List (String × String)
deriving Repr, DecidableEq

/-- Python `name in self.locations`. -/
def hasLoc (locs : List (String × List String)) (name : String) : Bool :=
  locs.any (fun p => decide (p.1 = name))

/-- `Location.add_agent` (environment_manager.py lines 18-21) applied to
the named location: append unless already present. -/
def locAddAgent (locs : List (String × List String)) (locName agentName : String) :
    List (String × List String) :=
  locs.map (fun p =>
    if p.1 = locName then
      (p.1, if agentName ∈ p.2 then p.2 else p.2 ++ [agentName])
    else p)

/-- `Location.remove_agent` (lines 23-26) applied to the named location:
Python `list.remove`, i.e. erase the first occurrence if present. -/
def locRemoveAgent (locs : List (String × List String)) (locName agentName : String) :
    List (String × List String) :=
  locs.map (fun p => if p.1 = locName then (p.1, p.2.erase agentName) else p)

/-- Assignment to an agent's `location` field. -/
def setAgentLocation (agents : List (String × String)) (n ℓ : String) :
    List (String × String) :=
  agents.map (fun p => if p.1 = n then (p.1, ℓ) else p)

/-- The agent's `location` field. -/
def agentLocation (s : WorldState) (n : String) : Option String :=
  (s.agents.find? (fun p => decide (p.1 = n))).map Prod.snd

/-- `EnvironmentStateManager.move_agent` (environment_manager.py lines
83-101): first remove the agent from `from_location`'s set (when given and
known), only then check `to_location`; on an unknown destination print a
warning and return `False` with the agent's own `location` field untouched. -/
def moveAgent (s : WorldState) (agentName : String) (fromLoc : Option String)
    (toLoc : String) : WorldState × Bool :=
  let locs1 := match fromLoc with
    | some f => if hasLoc s.locs f then locRemoveAgent s.locs f agentName else s.locs
    | none => s.locs
  if hasLoc s.locs toLoc then
    ({ locs := locAddAgent locs1 toLoc agentName,
       agents := setAgentLocation s.agents agentName toLoc }, true)
  else
    ({ s with locs := locs1 }, false)

/-- `StoryAgent.move_to_location` (story_agent.py lines 221-234): remove
from the agent's own current location (if known), set the `location`
field, add to the new location's set (if known); always returns `True`. -/
def moveToLocation (s : WorldState) (agentName newLocation : String) : WorldState :=
  let oldLocation := (agentLocation s agentName).getD ""
  let locs1 := if hasLoc s.locs oldLocation
    then locRemoveAgent s.locs oldLocation agentName else s.locs
  let agents1 := setAgentLocation s.agents agentName newLocation
  let locs2 := if hasLoc locs1 newLocation
    then locAddAgent locs1 newLocation agentName else locs1
  { locs := locs2, agents := agents1 }

/-- The placement step of `SimulationEngine.introduce_new_character`
(simulation_engine.py lines 388-390) and of agent initialization (line 79):
register the fresh agent with its starting location as its `location`
field, then `move_agent(agent, None, agent.location)`. -/
def introduceAgentPlacement (s : WorldState) (n startLoc : String) :
    WorldState × Bool :=
  moveAgent { s with agents := s.agents ++ [(n, startLoc)] } n none startLoc

/-- The names of the locations whose `current_agents` contain `n`. -/
def containingLocsL (locs : List (String × List String)) (n : String) : List String :=
  (locs.filter (fun p => decide (n ∈ p.2))).map Prod.fst

/-- View-consistency: every agent's `location` field names exactly the one
location whose `current_agents` contains it. -/
def viewConsistent (s : WorldState) : Bool :=
  s.agents.all (fun p => decide (containingLocsL s.locs p.1 = [p.2]))

/-! ## Supporting lemmas for the event queue -/

lemma filter_due_of_filter_not_due {α : Type} (l : List (Int × α)) (t : Int) :
    (l.filter (fun p => !decide (p.1 ≤ t))).filter (fun p => decide (p.1 ≤ t)) = [] := by
  refine List.filter_eq_nil_iff.2 ?_
  intro a ha
  rw [List.mem_filter] at ha
  simp only [Bool.not_eq_true', decide_eq_false_iff_not] at ha
  simp [ha.2]

lemma filter_not_due_idem {α : Type} (l : List (Int × α)) (t : Int) :
    (l.filter (fun p => !decide (p.1 ≤ t))).filter (fun p => !decide (p.1 ≤ t))
      = l.filter (fun p => !decide (p.1 ≤ t)) := by
  refine List.filter_eq_self.2 ?_
  intro a ha
  rw [List.mem_filter] at ha
  exact ha.2

/-- After `advance_time`, nothing left in the queue is due, so a drain
returns no events and changes nothing. -/
lemma processScheduledEvents_advanceTime {α : Type} (s : EnvState α) (u : Int) :
    processScheduledEvents (advanceTime s u) = ([], advanceTime s u) := by
  unfold advanceTime processScheduledEvents
  simp only
  refine Prod.ext ?_ ?_
  · simp [filter_due_of_filter_not_due]
  · simp [filter_not_due_idem]

/-- Claim C10.  No event inserted by `schedule_event` during a simulation
step is ever handled by `process_event`: at the end of the step,
`advance_time` drains (and discards) every event that has become due, so
the phase-1 drain that feeds `process_event` at the start of the next step
finds nothing due — it returns no events and leaves the state unchanged,
whatever was scheduled during the step. -/
theorem scheduledEvents_never_reach_processEvent {α : Type} (s : EnvState α)
    (scheds : List (α × Int)) :
    processScheduledEvents (runStepEvents s scheds).2
      = ([], (runStepEvents s scheds).2) := by
  unfold runStepEvents
  simp only
  exact processScheduledEvents_advanceTime _ 1

lemma length_filter_add_length_filter_not {α : Type} (l : List α) (p : α → Bool) :
    (l.filter p).length + (l.filter (fun a => !p a)).length = l.length := by
  induction l with
  | nil => rfl
  | cons a t ih => by_cases h : p a <;> simp [List.filter_cons, h] <;> omega

/-- Claim C3.  `process_scheduled_events` returns exactly the queued events
whose fire time is at most `current_time`, in queue order (hence ascending
fire-time order, the queue being kept sorted by `schedule_event`), removes
exactly those entries, keeps every entry with a later fire time, leaves
the clock alone, and loses nothing; moreover `schedule_event` keeps the
queue sorted by fire time. -/
theorem processScheduledEvents_drains_due {α : Type} (s : EnvState α)
    (hsorted : s.queue.Pairwise (fun p q => p.1 ≤ q.1)) :
    (processScheduledEvents s).1
        = (s.queue.filter (fun p => decide (p.1 ≤ s.currentTime))).map Prod.snd
    ∧ (processScheduledEvents s).2.queue
        = s.queue.filter (fun p => !decide (p.1 ≤ s.currentTime))
    ∧ (∀ p ∈ s.queue, p.1 ≤ s.currentTime → p.2 ∈ (processScheduledEvents s).1)
    ∧ (∀ p ∈ (processScheduledEvents s).2.queue, s.currentTime < p.1)
    ∧ ((s.queue.filter (fun p => decide (p.1 ≤ s.currentTime))).map Prod.fst).Pairwise
        (· ≤ ·)
    ∧ (processScheduledEvents s).2.currentTime = s.currentTime
    ∧ (processScheduledEvents s).1.length + (processScheduledEvents s).2.queue.length
        = s.queue.length
    ∧ (∀ (ev : α) (d : Int),
        ((scheduleEvent s ev d).queue).Pairwise (fun p q => p.1 ≤ q.1)) := by
  refine ⟨rfl, rfl, ?_, ?_, ?_, rfl, ?_, ?_⟩
  · intro p hp hdue
    unfold processScheduledEvents
    simp only [List.mem_map]
    exact ⟨p, List.mem_filter.2 ⟨hp, by simpa using hdue⟩, rfl⟩
  · intro p hp
    unfold processScheduledEvents at hp
    simp only at hp
    have h := List.of_mem_filter hp
    simp only [Bool.not_eq_true', decide_eq_false_iff_not] at h
    omega
  · exact List.pairwise_map.2 (hsorted.filter _)
  · simpa [processScheduledEvents] using
      length_filter_add_length_filter_not s.queue (fun p => decide (p.1 ≤ s.currentTime))
  · intro ev d
    unfold scheduleEvent
    simp only
    have h := @List.sorted_mergeSort (Int × α)
      (fun p q => decide (p.1 ≤ q.1))
      (fun a b c hab hbc => by
        simp only [decide_eq_true_eq] at hab hbc ⊢; omega)
      (fun a b => by
        rcases Int.le_total a.1 b.1 with h | h <;> simp [h])
      (s.queue ++ [(s.currentTime + d, ev)])
    exact h.imp (by simp)

/-- Witness for C3 at a concrete sorted queue: fire times 1, 2, 5 with the
clock at 3 — events at 1 and 2 are returned, the event at 5 remains. -/
theorem processScheduledEvents_drains_due_witness :
    (({ currentTime := 3,
        queue := [(1, "a"), (2, "b"), (5, "c")] } : EnvState String).queue.Pairwise
          (fun p q => p.1 ≤ q.1))
    ∧ ((processScheduledEvents
        ({ currentTime := 3,
           queue := [(1, "a"), (2, "b"), (5, "c")] } : EnvState String)).1
        = ["a", "b"]) := by
  constructor
  · decide
  · have h := processScheduledEvents_drains_due
      ({ currentTime := 3, queue := [(1, "a"), (2, "b"), (5, "c")] } : EnvState String)
      (by decide)
    rw [h.1]
    rfl

/-! ## Supporting lemmas for relationship maps -/

lemma find?_map_overwrite (l : List (String × ℚ)) (k : String) (v : ℚ)
    (h : l.any (fun p => decide (p.1 = k)) = true) :
    (l.map (fun p => if p.1 = k then (k, v) else p)).find? (fun p => decide (p.1 = k))
      = some (k, v) := by
  induction l with
  | nil => simp at h
  | cons p t ih =>
    by_cases hp : p.1 = k
    · simp [List.find?_cons, hp]
    · simp only [List.any_cons, Bool.or_eq_true, decide_eq_true_eq] at h
      rcases h with h | h
      · exact absurd h hp
      · simpa [List.find?_cons, hp] using ih h

lemma find?_dictSet_self (l : List (String × ℚ)) (k : String) (v : ℚ) :
    (dictSet l k v).find? (fun p => decide (p.1 = k)) = some (k, v) := by
  unfold dictSet
  by_cases h : l.any (fun p => decide (p.1 = k)) = true
  · rw [if_pos h]
    exact find?_map_overwrite l k v h
  · rw [if_neg h, List.find?_append]
    have hnone : l.find? (fun p => decide (p.1 = k)) = none := by
      rw [List.find?_eq_none]
      intro x hx
      intro hxk
      exact h (List.any_eq_true.2 ⟨x, hx, hxk⟩)
    simp [hnone, List.find?_cons]

lemma lookupD_updateRelationship (rels : List (String × ℚ)) (other : String)
    (q d : ℚ) :
    lookupD (updateRelationship rels other q) other d
      = max (-1) (min 1 (lookupD rels other 0 + q * (1/10))) := by
  unfold updateRelationship lookupD
  rw [find?_dictSet_self]

lemma mem_dictSet (l : List (String × ℚ)) (k : String) (v : ℚ) :
    ∀ p ∈ dictSet l k v, p ∈ l ∨ p = (k, v) := by
  intro p hp
  unfold dictSet at hp
  by_cases h : l.any (fun p => decide (p.1 = k)) = true
  · rw [if_pos h] at hp
    rcases List.mem_map.1 hp with ⟨p0, hp0, heq⟩
    by_cases h0 : p0.1 = k
    · right; rw [← heq, if_pos h0]
    · left; rw [← heq, if_neg h0]; exact hp0
  · rw [if_neg h] at hp
    rcases List.mem_append.1 hp with h1 | h1
    · exact Or.inl h1
    · right; simpa using h1

/-- Claim C4 (amended).  Every entry written by `update_relationship` is
clamped to [-1, 1], so updates preserve the range invariant; the scores
seeded by `introduce_new_character`, however, are copied verbatim from the
generated profile (missing entries defaulting to 0.0), so they lie in
[-1, 1] exactly when the profile's suggested values do. -/
theorem relationshipScores_clamped :
    (∀ (rels : List (String × ℚ)) (other : String) (q : ℚ),
      (∀ p ∈ rels, -1 ≤ p.2 ∧ p.2 ≤ 1) →
      ∀ p ∈ updateRelationship rels other q, -1 ≤ p.2 ∧ p.2 ≤ 1)
    ∧ (∀ (profile : List (String × ℚ)) (names : List String),
      (∀ p ∈ profile, -1 ≤ p.2 ∧ p.2 ≤ 1) →
      ∀ p ∈ seedIntroducedRelationships profile names, -1 ≤ p.2 ∧ p.2 ≤ 1) := by
  constructor
  · intro rels other q hrange p hp
    rcases mem_dictSet _ _ _ p hp with h | h
    · exact hrange p h
    · rw [h]
      constructor
      · exact le_max_left _ _
      · exact max_le (by norm_num) (min_le_left _ _)
  · intro profile names hrange p hp
    rcases List.mem_map.1 hp with ⟨n, hn, heq⟩
    subst heq
    cases hfind : profile.find? (fun p => decide (p.1 = n)) with
    | none => simp [hfind]
    | some pp =>
      have hmem : pp ∈ profile := List.mem_of_find?_eq_some hfind
      simpa [hfind] using hrange pp hmem

/-- Witness for C4 (amended): updating an empty map with quality 30 writes
the clamped score 1; seeding from an empty profile stays in range. -/
theorem relationshipScores_clamped_witness :
    ((∀ p ∈ ([] : List (String × ℚ)), -1 ≤ p.2 ∧ p.2 ≤ 1)
      ∧ ∀ p ∈ updateRelationship [] "Bob" 30, -1 ≤ p.2 ∧ p.2 ≤ 1) :=
  ⟨by simp, relationshipScores_clamped.1 [] "Bob" 30 (by simp)⟩

/-- Claim C4 (counterexample to the claim as stated).  A generated profile
suggesting relationship 5.0 toward the existing agent "Alice" is stored
verbatim by the introduction seeding: the new agent's score for "Alice"
is 5, which exceeds 1. -/
theorem seedIntroducedRelationships_exceeds_bounds :
    lookupD (seedIntroducedRelationships [("Alice", 5)] ["Alice"]) "Alice" 0 = 5
    ∧ ¬ ((5 : ℚ) ≤ 1) := by
  constructor
  · rfl
  · norm_num

/-- Claim C5.  With sentiment positive = 0.8 and negative = 0.1 and both
prior scores 0.0, one successful interaction leaves both participants'
scores at 0.07 = 0.0 + (0.8 − 0.1)·0.1, symmetrically, and the clamp to
[-1, 1] is a no-op on that value. -/
theorem interaction_sets_symmetric_scores (iName tName : String)
    (initRels targRels : List (String × ℚ))
    (h1 : lookupD initRels tName 0 = 0) (h2 : lookupD targRels iName 0 = 0) :
    lookupD (applyInteractionRelUpdate iName tName initRels targRels (4/5) (1/10)).1
        tName 0 = 7/100
    ∧ lookupD (applyInteractionRelUpdate iName tName initRels targRels (4/5) (1/10)).2
        iName 0 = 7/100
    ∧ max (-1) (min 1 ((0 : ℚ) + (4/5 - 1/10) * (1/10)))
        = (0 : ℚ) + (4/5 - 1/10) * (1/10) := by
  unfold applyInteractionRelUpdate
  refine ⟨?_, ?_, by norm_num⟩
  · rw [lookupD_updateRelationship, h1]; norm_num
  · rw [lookupD_updateRelationship, h2]; norm_num

/-- Witness for C5 at empty relationship maps. -/
theorem interaction_sets_symmetric_scores_witness :
    (lookupD [] "Tara" 0 = 0 ∧ lookupD [] "Ivan" 0 = 0)
    ∧ (lookupD (applyInteractionRelUpdate "Ivan" "Tara" [] [] (4/5) (1/10)).1
          "Tara" 0 = 7/100
      ∧ lookupD (applyInteractionRelUpdate "Ivan" "Tara" [] [] (4/5) (1/10)).2
          "Ivan" 0 = 7/100
      ∧ max (-1) (min 1 ((0 : ℚ) + (4/5 - 1/10) * (1/10)))
          = (0 : ℚ) + (4/5 - 1/10) * (1/10)) :=
  ⟨⟨rfl, rfl⟩, interaction_sets_symmetric_scores "Ivan" "Tara" [] [] rfl rfl⟩

/-! ## C6: should_initiate_interaction -/

/-- An agent with full energy, no traits, and no interaction history. -/
def aliceAlone : AgentView :=
  { name := "Alice", location := "forest", personalityTraits := [],
    energyLevel := 1, lastInteractionTime := none }

/-- An agent whose last interaction was recorded at step 0. -/
def zeroTimeAgent : AgentView :=
  { name := "Zed", location := "inn", personalityTraits := [],
    energyLevel := 1, lastInteractionTime := some 0 }

/-- A second agent sharing `zeroTimeAgent`'s location. -/
def innMate : AgentView :=
  { name := "Mia", location := "inn", personalityTraits := [],
    energyLevel := 1, lastInteractionTime := none }

/-- Claim C6 (counterexample to the claim as stated).  Two failures of the
fail-closed description.  First, the engine passes `self.story_agents` — a
list containing the initiating agent itself — so the no-candidate gate
never fires: here no co-located candidate other than the agent itself
exists (the list holds only the agent), yet the function proceeds to the
random draw and returns `true`.  Second, an agent whose last interaction
was at step 0 is inside the 2-step cooldown at step 1 (1 − 0 < 2), yet
Python's truthiness test on `last_interaction_time` skips the cooldown and
the function returns `true`. -/
theorem shouldInitiate_true_without_candidates :
    (shouldInitiateInteraction aliceAlone [aliceAlone] 1 0 = true
      ∧ ∀ o ∈ [aliceAlone], o.name = aliceAlone.name)
    ∧ (shouldInitiateInteraction zeroTimeAgent [innMate] 1 0 = true
      ∧ zeroTimeAgent.lastInteractionTime = some 0 ∧ (1 : Int) - 0 < 2) := by
  refine ⟨⟨?_, ?_⟩, ?_, rfl, by norm_num⟩
  · show shouldInitiateInteraction aliceAlone [aliceAlone] 1 0 = true
    unfold shouldInitiateInteraction personalityBase aliceAlone
    norm_num
  · intro o ho
    simp only [List.mem_singleton] at ho
    rw [ho]
  · show shouldInitiateInteraction zeroTimeAgent [innMate] 1 0 = true
    unfold shouldInitiateInteraction personalityBase zeroTimeAgent innMate
    norm_num

/-- Claim C6 (amended).  `should_initiate_interaction` returns `false`
whenever the last interaction lies within the 2-step cooldown and its
recorded time is nonzero (Python's truthiness test skips the cooldown for
time 0), whenever energy is below 0.3 (so an agent at 0.2 never initiates,
for every draw), and whenever no agent in the supplied list shares the
agent's location; since the agent itself is never excluded, a caller that
includes the agent in the list (as the engine does) co-locates it with
itself, and only in the remaining case is the draw compared against the
personality-modulated base probability. -/
theorem shouldInitiateInteraction_gates :
    (∀ (a : AgentView) (others : List AgentView) (t : Int) (draw : ℚ) (k : Int),
       a.lastInteractionTime = some k → k ≠ 0 → t - k < 2 →
       shouldInitiateInteraction a others t draw = false)
    ∧ (∀ (a : AgentView) (others : List AgentView) (t : Int) (draw : ℚ),
       a.energyLevel < 3/10 → shouldInitiateInteraction a others t draw = false)
    ∧ (∀ (a : AgentView) (others : List AgentView) (t : Int) (draw : ℚ),
       (∀ o ∈ others, o.location ≠ a.location) →
       shouldInitiateInteraction a others t draw = false)
    ∧ (∀ (a : AgentView) (others : List AgentView) (t : Int) (draw : ℚ),
       (∀ k : Int, a.lastInteractionTime = some k → k = 0 ∨ 2 ≤ t - k) →
       ¬ (a.energyLevel < 3/10) →
       (∃ o ∈ others, o.location = a.location) →
       shouldInitiateInteraction a others t draw
         = decide (draw < personalityBase a.personalityTraits)) := by
  refine ⟨?_, ?_, ?_, ?_⟩
  · intro a others t draw k hk hk0 hlt
    unfold shouldInitiateInteraction
    rw [hk]
    simp [hk0, hlt]
  · intro a others t draw h
    unfold shouldInitiateInteraction
    split
    · rfl
    · simp [h]
  · intro a others t draw h
    unfold shouldInitiateInteraction
    split
    · rfl
    · split
      · rfl
      · rw [if_pos]
        rw [List.isEmpty_iff, List.filter_eq_nil_iff]
        intro o ho
        simpa using h o ho
  · intro a others t draw hcool henergy ⟨o, ho, holoc⟩
    unfold shouldInitiateInteraction
    have h1 : (match a.lastInteractionTime with
        | none => false
        | some k => decide (k ≠ 0) && decide (t - k < 2)) = false := by
      cases hl : a.lastInteractionTime with
      | none => rfl
      | some k =>
        rcases hcool k hl with h | h
        · simp [h]
        · have : ¬ (t - k < 2) := by omega
          simp [this]
    rw [h1]
    simp only [Bool.false_eq_true, if_false]
    rw [if_neg (by simpa using henergy)]
    rw [if_neg]
    simp only [List.isEmpty_iff]
    intro hnil
    have : o ∈ others.filter (fun x => decide (x.location = a.location)) :=
      List.mem_filter.2 ⟨ho, by simpa using holoc⟩
    rw [hnil] at this
    simp at this

/-- The claim's scenario agent with energy 0.2. -/
def tiredAgent : AgentView :=
  { name := "Tess", location := "inn", personalityTraits := [],
    energyLevel := 1/5, lastInteractionTime := none }

/-- Witness for C6 (amended): the 0.2-energy agent never initiates. -/
theorem shouldInitiateInteraction_gates_witness :
    (tiredAgent.energyLevel < 3/10)
    ∧ shouldInitiateInteraction tiredAgent [] 5 0 = false :=
  ⟨by norm_num [tiredAgent],
   shouldInitiateInteraction_gates.2.1 tiredAgent [] 5 0 (by norm_num [tiredAgent])⟩

/-! ## C7: should_end_current_chapter -/

/-- Claim C7.  The chapter-close decision: never ends below the 8-interaction
floor; forces an end (urgency "high") at the 25-interaction cap; otherwise
ends exactly when the ending score accumulated from the six signals
(+0.4 plot point, +0.3 emotional climax, +0.2 character development,
+0.2 relationship change, +0.3 conflict resolution, +0.1 natural pause —
see `chapterEndingScore`) reaches 0.6, tagging urgency "high" at 0.8 and
"medium" at 0.6. -/
theorem shouldEndCurrentChapter_policy :
    (∀ (st : OverseerView) (t : Int), st.interactions.length < 8 →
        (shouldEndCurrentChapter st t).shouldEnd = false)
    ∧ (∀ (st : OverseerView) (t : Int), 25 ≤ st.interactions.length →
        shouldEndCurrentChapter st t = .maxLengthReached
        ∧ (shouldEndCurrentChapter st t).shouldEnd = true
        ∧ (shouldEndCurrentChapter st t).urgencyTag = some "high")
    ∧ (∀ (st : OverseerView) (t : Int),
        8 ≤ st.interactions.length → st.interactions.length < 25 →
        shouldEndCurrentChapter st t
            = .scored (chapterEndingScore st t) (chapterEndingReasons st t)
        ∧ ((shouldEndCurrentChapter st t).shouldEnd = true
            ↔ (6/10 : ℚ) ≤ chapterEndingScore st t)
        ∧ ((8/10 : ℚ) ≤ chapterEndingScore st t →
            (shouldEndCurrentChapter st t).urgencyTag = some "high")
        ∧ ((6/10 : ℚ) ≤ chapterEndingScore st t → chapterEndingScore st t < 8/10 →
            (shouldEndCurrentChapter st t).urgencyTag = some "medium")) := by
  refine ⟨?_, ?_, ?_⟩
  · intro st t h
    unfold shouldEndCurrentChapter
    rw [if_pos h]
    rfl
  · intro st t h
    have h8 : ¬ (st.interactions.length < 8) := by omega
    unfold shouldEndCurrentChapter
    rw [if_neg h8, if_pos h]
    exact ⟨rfl, rfl, rfl⟩
  · intro st t h8 h25
    have h8' : ¬ (st.interactions.length < 8) := by omega
    have h25' : ¬ (25 ≤ st.interactions.length) := by omega
    unfold shouldEndCurrentChapter
    rw [if_neg h8', if_neg h25']
    refine ⟨rfl, ?_, ?_, ?_⟩
    · show decide ((6/10 : ℚ) ≤ chapterEndingScore st t) = true ↔ _
      exact decide_eq_true_iff
    · intro hhigh
      show some _ = some "high"
      rw [if_pos hhigh]
    · intro hmed hlt
      have : ¬ ((8/10 : ℚ) ≤ chapterEndingScore st t) := by
        exact not_le.2 hlt
      show some _ = some "medium"
      rw [if_neg this, if_pos hmed]

/-- An empty interaction record (no content, no sentiment). -/
def blankInteraction : InteractionRec := { content := "", emotionalIntensity := none }

/-- Witness for C7 in the scored regime: ten content-free interactions. -/
theorem shouldEndCurrentChapter_policy_witness :
    (8 ≤ (List.replicate 10 blankInteraction).length
      ∧ (List.replicate 10 blankInteraction).length < 25)
    ∧ (shouldEndCurrentChapter
          { interactions := List.replicate 10 blankInteraction,
            plotPoints := [], emotionalBeats := [],
            characterArcMoments := [], relChangeMoments := [] } 9
        = .scored
            (chapterEndingScore
              { interactions := List.replicate 10 blankInteraction,
                plotPoints := [], emotionalBeats := [],
                characterArcMoments := [], relChangeMoments := [] } 9)
            (chapterEndingReasons
              { interactions := List.replicate 10 blankInteraction,
                plotPoints := [], emotionalBeats := [],
                characterArcMoments := [], relChangeMoments := [] } 9)) :=
  ⟨by decide,
   (shouldEndCurrentChapter_policy.2.2
      { interactions := List.replicate 10 blankInteraction,
        plotPoints := [], emotionalBeats := [],
        characterArcMoments := [], relChangeMoments := [] } 9
      (by decide) (by decide)).1⟩

/-! ## C8: ending conditions, the missing narrator method, and the run -/

/-- Claim C8.  The condition logic of `check_ending_conditions` is as the
claim states — true exactly when the step count has reached
`max_time_steps`, or the overseer reports ending readiness, or the
narrator reports stagnation with the step count past 20 — but the claimed
run never happens: with `max_time_steps = 5`, step 1's phase 5.5 accesses
`narrator.should_introduce_new_character` (simulation_engine.py line 124),
a method `NarratorAgent` does not define, so an `AttributeError` escapes
the step and `run_full_simulation`'s `except`, outside the loop, ends the
run at step 1 with no final chapter.  Even were step 5 reached,
`conclude_story` passes `synthesize_chapter` the unsupported keyword
`max_interactions`, raising `TypeError` before any final chapter. -/
theorem endingConditions_run_and_concludeStory :
    (∀ (step maxSteps : Nat) (r s : Bool),
        checkEndingConditions step maxSteps r s
          = (decide (maxSteps ≤ step) || r || (s && decide (20 < step))))
    ∧ runFullSimulation (fun _ => false) (fun _ => false) 5
        = { finalStep := 1, finalChapterEmitted := false }
    ∧ runSimulationStepSkeleton 1 5 false false
        = .error (.attributeErrorMissingMethod "NarratorAgent"
            "should_introduce_new_character")
    ∧ concludeStory 0
        = .error (.typeErrorUnexpectedKeywordArgument "synthesize_chapter"
            "max_interactions") := by
  refine ⟨?_, by decide, rfl, rfl⟩
  intro step maxSteps r s
  unfold checkEndingConditions
  by_cases h1 : maxSteps ≤ step <;> cases r <;> cases s <;>
    by_cases h2 : 20 < step <;> simp [h1, h2]

/-! ## Supporting lemmas for the world state (C1, C2) -/

/-- Well-formedness facts that hold of every world built through
`add_location` (a dict keyed by name), `Location.add_agent` (duplicate
guard) and distinct agent names. -/
def WellFormed (s : WorldState) : Prop :=
  (s.locs.map Prod.fst).Nodup ∧ (∀ p ∈ s.locs, p.2.Nodup)
    ∧ (s.agents.map Prod.fst).Nodup

instance : DecidablePred WellFormed := fun s => by
  unfold WellFormed
  infer_instance

lemma viewConsistent_iff (s : WorldState) :
    viewConsistent s = true
      ↔ ∀ p ∈ s.agents, containingLocsL s.locs p.1 = [p.2] := by
  unfold viewConsistent
  rw [List.all_eq_true]
  simp only [decide_eq_true_eq]

lemma hasLoc_map_of_fst_eq (locs : List (String × List String))
    (g : String × List String → String × List String)
    (hfst : ∀ p, (g p).1 = p.1) (x : String) :
    hasLoc (locs.map g) x = hasLoc locs x := by
  induction locs with
  | nil => rfl
  | cons p t ih =>
    unfold hasLoc at ih ⊢
    simp only [List.map_cons, List.any_cons, hfst p]
    rw [ih]

lemma containingLocsL_map_of_mem_iff (locs : List (String × List String))
    (g : String × List String → String × List String) (m : String)
    (hfst : ∀ p, (g p).1 = p.1) (hmem : ∀ p, m ∈ (g p).2 ↔ m ∈ p.2) :
    containingLocsL (locs.map g) m = containingLocsL locs m := by
  induction locs with
  | nil => rfl
  | cons p t ih =>
    unfold containingLocsL at ih ⊢
    simp only [List.map_cons, List.filter_cons]
    by_cases hm : m ∈ p.2
    · rw [if_pos (by simpa using (hmem p).2 hm), if_pos (by simpa using hm)]
      simp only [List.map_cons, hfst p]
      rw [ih]
    · rw [if_neg (by simpa using fun h => hm ((hmem p).1 h)),
        if_neg (by simpa using hm)]
      exact ih

lemma fst_removeT (ℓ n : String) (p : String × List String) :
    (if p.1 = ℓ then (p.1, p.2.erase n) else p).1 = p.1 := by
  by_cases h : p.1 = ℓ <;> simp [h]

lemma fst_addT (dst n : String) (p : String × List String) :
    (if p.1 = dst then (p.1, if n ∈ p.2 then p.2 else p.2 ++ [n]) else p).1
      = p.1 := by
  by_cases h : p.1 = dst <;> simp [h]

lemma containingLocsL_locRemoveAgent_other (locs : List (String × List String))
    (ℓ n m : String) (hmn : m ≠ n) :
    containingLocsL (locRemoveAgent locs ℓ n) m = containingLocsL locs m := by
  unfold locRemoveAgent
  refine containingLocsL_map_of_mem_iff locs _ m (fun p => fst_removeT ℓ n p) ?_
  intro p
  by_cases h : p.1 = ℓ
  · simp only [h, if_pos]
    exact List.mem_erase_of_ne hmn
  · simp [h]

lemma containingLocsL_locAddAgent_other (locs : List (String × List String))
    (dst n m : String) (hmn : m ≠ n) :
    containingLocsL (locAddAgent locs dst n) m = containingLocsL locs m := by
  unfold locAddAgent
  refine containingLocsL_map_of_mem_iff locs _ m (fun p => fst_addT dst n p) ?_
  intro p
  by_cases h : p.1 = dst
  · simp only [h, if_pos]
    by_cases hn : n ∈ p.2
    · simp [hn]
    · simp only [hn, if_neg, if_false, List.mem_append, List.mem_singleton]
      constructor
      · rintro (h1 | h1)
        · exact h1
        · exact absurd h1 hmn
      · exact Or.inl
  · simp [h]

lemma of_containingLocsL_single (locs : List (String × List String))
    (n ℓ : String) (h : containingLocsL locs n = [ℓ]) :
    ∀ p ∈ locs, n ∈ p.2 → p.1 = ℓ := by
  intro p hp hnp
  have hmem : p.1 ∈ containingLocsL locs n := by
    unfold containingLocsL
    exact List.mem_map.2 ⟨p, List.mem_filter.2 ⟨hp, by simpa using hnp⟩, rfl⟩
  rw [h] at hmem
  simpa using hmem

lemma not_mem_of_containingLocsL_nil (locs : List (String × List String))
    (n : String) (h : containingLocsL locs n = []) :
    ∀ p ∈ locs, n ∉ p.2 := by
  intro p hp hnp
  have hmem : p.1 ∈ containingLocsL locs n := by
    unfold containingLocsL
    exact List.mem_map.2 ⟨p, List.mem_filter.2 ⟨hp, by simpa using hnp⟩, rfl⟩
  rw [h] at hmem
  simp at hmem

lemma containingLocsL_locRemoveAgent_self (locs : List (String × List String))
    (ℓ n : String) (hone : ∀ p ∈ locs, n ∈ p.2 → p.1 = ℓ)
    (hnd : ∀ p ∈ locs, p.2.Nodup) :
    containingLocsL (locRemoveAgent locs ℓ n) n = [] := by
  unfold containingLocsL
  have hfil : (locRemoveAgent locs ℓ n).filter (fun p => decide (n ∈ p.2)) = [] := by
    refine List.filter_eq_nil_iff.2 ?_
    intro q hq
    rcases List.mem_map.1 hq with ⟨p, hp, rfl⟩
    by_cases h : p.1 = ℓ
    · simp only [h, if_pos, decide_eq_true_eq]
      exact (hnd p hp).not_mem_erase
    · simp only [h, if_neg, if_false, decide_eq_true_eq]
      exact fun hn => h (hone p hp hn)
  rw [hfil]
  rfl

lemma map_fst_locRemoveAgent (locs : List (String × List String)) (ℓ n : String) :
    (locRemoveAgent locs ℓ n).map Prod.fst = locs.map Prod.fst := by
  unfold locRemoveAgent
  rw [List.map_map]
  exact List.map_congr_left (fun p _ => fst_removeT ℓ n p)

lemma hasLoc_locRemoveAgent (locs : List (String × List String)) (ℓ n x : String) :
    hasLoc (locRemoveAgent locs ℓ n) x = hasLoc locs x :=
  hasLoc_map_of_fst_eq locs _ (fun p => fst_removeT ℓ n p) x

lemma containingLocsL_locAddAgent_nil (locs : List (String × List String))
    (dst n : String) (hnone : ∀ p ∈ locs, n ∉ p.2)
    (hdst : dst ∉ locs.map Prod.fst) :
    containingLocsL (locAddAgent locs dst n) n = [] := by
  unfold containingLocsL
  have hfil : (locAddAgent locs dst n).filter (fun p => decide (n ∈ p.2)) = [] := by
    refine List.filter_eq_nil_iff.2 ?_
    intro q hq
    unfold locAddAgent at hq
    rcases List.mem_map.1 hq with ⟨p, hp, rfl⟩
    have hne : p.1 ≠ dst := fun h => hdst (h ▸ List.mem_map.2 ⟨p, hp, rfl⟩)
    simp only [hne, if_neg, if_false, decide_eq_true_eq]
    exact hnone p hp
  rw [hfil]
  rfl

lemma containingLocsL_locAddAgent_self (locs : List (String × List String))
    (dst n : String) (hnone : ∀ p ∈ locs, n ∉ p.2)
    (hkeys : (locs.map Prod.fst).Nodup) (hdst : hasLoc locs dst = true) :
    containingLocsL (locAddAgent locs dst n) n = [dst] := by
  induction locs with
  | nil => simp [hasLoc] at hdst
  | cons p t ih =>
    have hpn : n ∉ p.2 := hnone p (List.mem_cons_self p t)
    have hkeys' : p.1 ∉ t.map Prod.fst ∧ (t.map Prod.fst).Nodup :=
      List.nodup_cons.1 (by simpa using hkeys)
    by_cases hp : p.1 = dst
    · unfold containingLocsL locAddAgent
      simp only [List.map_cons, List.filter_cons, hp, if_pos, hpn, if_neg, if_false]
      rw [if_pos (by simp)]
      have htail : containingLocsL (locAddAgent t dst n) n = [] := by
        refine containingLocsL_locAddAgent_nil t dst n
          (fun q hq => hnone q (List.mem_cons_of_mem p hq)) ?_
        rw [← hp]
        exact hkeys'.1
      unfold containingLocsL locAddAgent at htail
      rw [List.map_cons, htail]
    · unfold containingLocsL locAddAgent
      simp only [List.map_cons, List.filter_cons, hp, if_neg, if_false]
      rw [if_neg (by simpa using hpn)]
      have hdst' : hasLoc t dst = true := by
        unfold hasLoc at hdst ⊢
        simpa [hp] using hdst
      have := ih (fun q hq => hnone q (List.mem_cons_of_mem p hq)) hkeys'.2 hdst'
      unfold containingLocsL locAddAgent at this
      exact this

lemma mem_of_agentLocation (s : WorldState) (n ℓ : String)
    (h : agentLocation s n = some ℓ) : (n, ℓ) ∈ s.agents := by
  unfold agentLocation at h
  rcases Option.map_eq_some'.1 h with ⟨p, hfind, hsnd⟩
  have hfst : p.1 = n := by simpa using List.find?_some hfind
  have hmem := List.mem_of_find?_eq_some hfind
  have : (n, ℓ) = p := by
    cases p
    simp only at hfst hsnd
    rw [hfst, hsnd]
  rw [this]
  exact hmem

lemma hasLoc_of_containing (locs : List (String × List String)) (n ℓ : String)
    (h : containingLocsL locs n = [ℓ]) : hasLoc locs ℓ = true := by
  have : ℓ ∈ containingLocsL locs n := by rw [h]; exact List.mem_singleton.2 rfl
  unfold containingLocsL at this
  rcases List.mem_map.1 this with ⟨p, hp, rfl⟩
  unfold hasLoc
  exact List.any_eq_true.2 ⟨p, List.mem_of_mem_filter hp, by simp⟩

/-- The common core of the two move operations: with the destination known
and the agent currently sitting exactly in location `ℓ`, removing it from
`ℓ`, adding it to `dst` and setting its field to `dst` restores
view-consistency for every agent. -/
lemma consistent_after_move (locs : List (String × List String))
    (agents : List (String × String)) (n ℓ dst : String)
    (hkeys : (locs.map Prod.fst).Nodup) (hlnd : ∀ p ∈ locs, p.2.Nodup)
    (hv : ∀ p ∈ agents, containingLocsL locs p.1 = [p.2])
    (hmem : (n, ℓ) ∈ agents) (hdst : hasLoc locs dst = true) :
    ∀ p ∈ setAgentLocation agents n dst,
      containingLocsL (locAddAgent (locRemoveAgent locs ℓ n) dst n) p.1 = [p.2] := by
  intro p' hp'
  unfold setAgentLocation at hp'
  rcases List.mem_map.1 hp' with ⟨p, hp, rfl⟩
  have hcont : containingLocsL locs n = [ℓ] := hv _ hmem
  by_cases hpn : p.1 = n
  · simp only [hpn, if_pos]
    show containingLocsL (locAddAgent (locRemoveAgent locs ℓ n) dst n) n = [dst]
    have h1 : containingLocsL (locRemoveAgent locs ℓ n) n = [] :=
      containingLocsL_locRemoveAgent_self locs ℓ n
        (of_containingLocsL_single locs n ℓ hcont) hlnd
    have h2 : ∀ q ∈ locRemoveAgent locs ℓ n, n ∉ q.2 :=
      not_mem_of_containingLocsL_nil _ n h1
    have h3 : ((locRemoveAgent locs ℓ n).map Prod.fst).Nodup := by
      rw [map_fst_locRemoveAgent]; exact hkeys
    have h4 : hasLoc (locRemoveAgent locs ℓ n) dst = true := by
      rw [hasLoc_locRemoveAgent]; exact hdst
    exact containingLocsL_locAddAgent_self _ dst n h2 h3 h4
  · simp only [hpn, if_neg, if_false]
    rw [containingLocsL_locAddAgent_other _ dst n p.1 hpn,
        containingLocsL_locRemoveAgent_other _ ℓ n p.1 hpn]
    exact hv p hp

/-- Claim C1 (amended).  The moving/placing operations preserve the
view-consistency invariant *when the destination location exists*:
`move_agent` called with the agent's own recorded location as the source,
`move_to_location` (which reads the agent's own field), and the placement
of a freshly introduced agent.  (When the destination is unknown the
invariant can break — see the counterexample.) -/
theorem moveOps_preserve_viewConsistency :
    (∀ (s : WorldState) (n ℓ dst : String),
        WellFormed s → viewConsistent s = true →
        agentLocation s n = some ℓ → hasLoc s.locs dst = true →
        viewConsistent (moveAgent s n (some ℓ) dst).1 = true)
    ∧ (∀ (s : WorldState) (n ℓ dst : String),
        WellFormed s → viewConsistent s = true →
        agentLocation s n = some ℓ → hasLoc s.locs dst = true →
        viewConsistent (moveToLocation s n dst) = true)
    ∧ (∀ (s : WorldState) (n dst : String),
        WellFormed s → viewConsistent s = true →
        (∀ p ∈ s.agents, p.1 ≠ n) → (∀ p ∈ s.locs, n ∉ p.2) →
        hasLoc s.locs dst = true →
        viewConsistent (introduceAgentPlacement s n dst).1 = true) := by
  have hmove : ∀ (s : WorldState) (n ℓ dst : String),
      WellFormed s → viewConsistent s = true →
      agentLocation s n = some ℓ → hasLoc s.locs dst = true →
      viewConsistent (moveAgent s n (some ℓ) dst).1 = true := by
    intro s n ℓ dst hw hv hloc hdst
    obtain ⟨hkeys, hlnd, _⟩ := hw
    have hv' := (viewConsistent_iff s).1 hv
    have hmem := mem_of_agentLocation s n ℓ hloc
    have hℓ : hasLoc s.locs ℓ = true := hasLoc_of_containing _ _ _ (hv' _ hmem)
    unfold moveAgent
    simp only [hℓ, if_true, hdst]
    rw [viewConsistent_iff]
    exact consistent_after_move s.locs s.agents n ℓ dst hkeys hlnd hv' hmem hdst
  refine ⟨hmove, ?_, ?_⟩
  · intro s n ℓ dst hw hv hloc hdst
    have hv' := (viewConsistent_iff s).1 hv
    have hmem := mem_of_agentLocation s n ℓ hloc
    have hℓ : hasLoc s.locs ℓ = true := hasLoc_of_containing _ _ _ (hv' _ hmem)
    have heq : moveToLocation s n dst = (moveAgent s n (some ℓ) dst).1 := by
      unfold moveToLocation moveAgent
      rw [hloc]
      simp only [Option.getD_some, hℓ, if_true, hdst, hasLoc_locRemoveAgent]
    rw [heq]
    exact hmove s n ℓ dst hw hv hloc hdst
  · intro s n dst hw hv hfresh hnot hdst
    obtain ⟨hkeys, _, _⟩ := hw
    have hv' := (viewConsistent_iff s).1 hv
    unfold introduceAgentPlacement moveAgent
    simp only [hdst, if_true]
    rw [viewConsistent_iff]
    intro p hp
    simp only at hp
    have hagents : setAgentLocation (s.agents ++ [(n, dst)]) n dst
        = s.agents ++ [(n, dst)] := by
      unfold setAgentLocation
      rw [List.map_append]
      congr 1
      · calc s.agents.map (fun p => if p.1 = n then (p.1, dst) else p)
            = s.agents.map id :=
              List.map_congr_left (fun q hq => by simp [hfresh q hq])
          _ = s.agents := List.map_id s.agents
      · simp
    rw [hagents] at hp
    rcases List.mem_append.1 hp with h | h
    · have hpn : p.1 ≠ n := hfresh p h
      show containingLocsL (locAddAgent s.locs dst n) p.1 = [p.2]
      rw [containingLocsL_locAddAgent_other _ dst n p.1 hpn]
      exact hv' p h
    · have : p = (n, dst) := by simpa using h
      rw [this]
      exact containingLocsL_locAddAgent_self s.locs dst n hnot hkeys hdst

/-- A consistent two-location world: agent "x" in location "A", "B" empty. -/
def worldAB : WorldState :=
  { locs := [("A", ["x"]), ("B", [])], agents := [("x", "A")] }

/-- Witness for C1 (amended): moving "x" from "A" to the known location
"B" keeps the views consistent. -/
theorem moveOps_preserve_viewConsistency_witness :
    (WellFormed worldAB ∧ viewConsistent worldAB = true
      ∧ agentLocation worldAB "x" = some "A" ∧ hasLoc worldAB.locs "B" = true)
    ∧ viewConsistent (moveAgent worldAB "x" (some "A") "B").1 = true :=
  ⟨⟨by decide, by decide, by decide, by decide⟩,
   moveOps_preserve_viewConsistency.1 worldAB "x" "A" "B"
     (by decide) (by decide) (by decide) (by decide)⟩

/-- A consistent one-location world holding the single agent "x". -/
def worldAx : WorldState := { locs := [("A", ["x"])], agents := [("x", "A")] }

/-- Claim C1 (counterexample to the claim as stated).  `move_agent` to the
unknown location "B" removes "x" from "A" and leaves its `location` field
at "A": the two views diverge, so not every move operation preserves the
invariant. -/
theorem moveAgent_unknown_dest_breaks_consistency :
    viewConsistent worldAx = true
    ∧ (moveAgent worldAx "x" (some "A") "B").2 = false
    ∧ viewConsistent (moveAgent worldAx "x" (some "A") "B").1 = false := by
  refine ⟨by decide, by decide, by decide⟩

/-- Claim C2 (counterexample to the claim as stated).  When the destination
is unknown, `move_agent` returns failure — but the state is *not*
unchanged: the agent has already been removed from the source location's
`current_agents` (the removal precedes the destination check). -/
theorem moveAgent_failure_mutates_source :
    (moveAgent worldAx "x" (some "A") "B").2 = false
    ∧ (moveAgent worldAx "x" (some "A") "B").1.locs = [("A", [])]
    ∧ (moveAgent worldAx "x" (some "A") "B").1.agents = [("x", "A")]
    ∧ (moveAgent worldAx "x" (some "A") "B").1 ≠ worldAx := by
  refine ⟨by decide, by decide, by decide, by decide⟩

/-- Claim C2 (amended).  On an unknown destination `move_agent` returns
failure without raising and never touches any agent's `location` field;
the world is truly unchanged when the source is absent or unknown, but
when the source is a known location the agent has already been removed
from its `current_agents` — the dual update is not atomic. -/
theorem moveAgent_unknown_destination (s : WorldState) (n : String)
    (f : Option String) (dst : String) (hdst : hasLoc s.locs dst = false) :
    (moveAgent s n f dst).2 = false
    ∧ (moveAgent s n f dst).1.agents = s.agents
    ∧ (f = none → (moveAgent s n f dst).1 = s)
    ∧ (∀ fl, f = some fl → hasLoc s.locs fl = false → (moveAgent s n f dst).1 = s)
    ∧ (∀ fl, f = some fl → hasLoc s.locs fl = true →
        (moveAgent s n f dst).1.locs = locRemoveAgent s.locs fl n) := by
  refine ⟨?_, ?_, ?_, ?_, ?_⟩
  · unfold moveAgent
    simp [hdst]
  · unfold moveAgent
    simp [hdst]
  · rintro rfl
    unfold moveAgent
    simp [hdst]
  · rintro fl rfl hfl
    unfold moveAgent
    simp [hdst, hfl]
  · rintro fl rfl hfl
    unfold moveAgent
    simp [hdst, hfl]

/-- Witness for C2 (amended): moving "x" from "A" to the unknown "Z". -/
theorem moveAgent_unknown_destination_witness :
    hasLoc worldAx.locs "Z" = false
    ∧ ((moveAgent worldAx "x" (some "A") "Z").2 = false
      ∧ (moveAgent worldAx "x" (some "A") "Z").1.agents = worldAx.agents
      ∧ (some "A" = none → (moveAgent worldAx "x" (some "A") "Z").1 = worldAx)
      ∧ (∀ fl, some "A" = some fl → hasLoc worldAx.locs fl = false →
          (moveAgent worldAx "x" (some "A") "Z").1 = worldAx)
      ∧ (∀ fl, some "A" = some fl → hasLoc worldAx.locs fl = true →
          (moveAgent worldAx "x" (some "A") "Z").1.locs
            = locRemoveAgent worldAx.locs fl "x")) :=
  ⟨by decide, moveAgent_unknown_destination worldAx "x" (some "A") "Z" (by decide)⟩

/-! ## C9: find_path_between_locations (BFS)
Embedding of `EnvironmentStateManager.find_path_between_locations`
(environment_manager.py lines 186-209).  The graph is `location_graph`
as an association list name ↦ adjacency list. -/

/-- Python `x in self.location_graph`. -/
def hasKey (g : List (String × List String)) (x : String) : Bool :=
  g.any (fun p => decide (p.1 = x))

/-- Python `self.location_graph[current]` (callers only reach this with
keys present; an absent key reads as `[]`). -/
def adjOf (g : List (String × List String)) (x : String) : List String :=
  ((g.find? (fun p => decide (p.1 = x))).map Prod.snd).getD []

/-- The inner `for neighbor in self.location_graph[current]` loop of the
BFS (lines 201-207): either returns the finished path (`Sum.inr`) on
meeting `endName`, or the updated visited set and queue (`Sum.inl`). -/
def expandN (endName : String) (path : List String) :
    List String → List (String × List String) → List String →
    (List String × List (String × List String)) ⊕ List String
  | visited, queue, [] => .inl (visited, queue)
  | visited, queue, nb :: rest =>
    if nb = endName then .inr (path ++ [nb])
    else if nb ∈ visited then expandN endName path visited queue rest
    else expandN endName path (visited ++ [nb])
      (queue ++ [(nb, path ++ [nb])]) rest

/-- The outer `while queue:` loop (lines 198-207), with explicit fuel (the
Python loop terminates because each location is enqueued at most once; the
caller passes fuel exceeding the total number of possible iterations, and
we prove the fuel is never exhausted). -/
def bfsLoop (g : List (String × List String)) (endName : String) :
    Nat → List (String × List String) → List String → Option (List String)
  | 0, _, _ => none
  | _ + 1, [], _ => none
  | fuel + 1, (cur, path) :: rest, visited =>
    match expandN endName path visited rest (adjOf g cur) with
    | .inr found => some found
    | .inl (visited', queue') => bfsLoop g endName fuel queue' visited'

/-- `find_path_between_locations(start, end)` (lines 186-209). -/
def findPathBetweenLocations (g : List (String × List String))
    (start endName : String) : Option (List String) :=
  if !hasKey g start || !hasKey g endName then none
  else if start = endName then some [start]
  else bfsLoop g endName (2 * g.length + 1) [(start, [start])] [start]

/-- `p` is a path in `g` from `start` to `endName`: nonempty, starts at
`start`, ends at `endName`, and each consecutive pair is an edge of the
adjacency structure. -/
def IsPath (g : List (String × List String)) (start endName : String)
    (p : List String) : Prop :=
  p.head? = some start ∧ p.getLast? = some endName
    ∧ List.Chain' (fun a b => b ∈ adjOf g a) p

/-- Every neighbor recorded in the graph is itself a key (true of graphs
built by `connect_locations`, which only links existing locations). -/
def WFGraph (g : List (String × List String)) : Prop :=
  ∀ p ∈ g, ∀ x ∈ p.2, hasKey g x = true

instance (g : List (String × List String)) : Decidable (WFGraph g) := by
  unfold WFGraph
  infer_instance

/-- The number of graph keys not yet visited (the BFS termination
measure's second component). -/
def unvisCount (g : List (String × List String)) (visited : List String) : Nat :=
  ((g.map Prod.fst).filter (fun k => decide (k ∉ visited))).length

/-! ### Path lemmas -/

lemma isPath_singleton (g : List (String × List String)) (s : String) :
    IsPath g s s [s] :=
  ⟨rfl, rfl, List.chain'_singleton s⟩

lemma IsPath.ne_nil {g : List (String × List String)} {s z : String}
    {p : List String} (h : IsPath g s z p) : p ≠ [] := by
  intro hnil
  rw [hnil] at h
  exact Option.noConfusion h.1

lemma IsPath.one_le_length {g : List (String × List String)} {s z : String}
    {p : List String} (h : IsPath g s z p) : 1 ≤ p.length := by
  cases p with
  | nil => exact absurd rfl h.ne_nil
  | cons a t => simp

lemma IsPath.snoc {g : List (String × List String)} {s x b : String}
    {p : List String} (h : IsPath g s x p) (hb : b ∈ adjOf g x) :
    IsPath g s b (p ++ [b]) := by
  have hpne := h.ne_nil
  obtain ⟨hh, hl, hc⟩ := h
  refine ⟨?_, List.getLast?_concat p, ?_⟩
  · rw [List.head?_append_of_ne_nil p hpne, hh]
  · rw [List.chain'_append]
    refine ⟨hc, List.chain'_singleton b, ?_⟩
    intro u hu v hv
    simp only [List.head?_cons, Option.mem_def, Option.some_inj] at hv
    rw [hl] at hu
    simp only [Option.mem_def, Option.some_inj] at hu
    subst hu
    subst hv
    exact hb

lemma IsPath.two_le_length {g : List (String × List String)} {s z : String}
    {p : List String} (h : IsPath g s z p) (hne : s ≠ z) : 2 ≤ p.length := by
  match p, h with
  | [a], ⟨hh, hl, _⟩ =>
    simp only [List.head?_cons, Option.some_inj] at hh
    simp only [List.getLast?_singleton, Option.some_inj] at hl
    exact absurd (hh.symm.trans hl) hne
  | a :: b :: t, _ => simp
  | [], h => exact absurd rfl h.ne_nil

/-- Splitting a path at an interior node: the prefix up to the node is a
path, and the next node is one of its neighbors. -/
lemma isPath_split (g : List (String × List String)) (s z w : String)
    (q1 q2 : List String) (h : IsPath g s z (q1 ++ w :: q2)) (hne : q1 ≠ []) :
    ∃ y, q1.getLast? = some y ∧ IsPath g s y q1 ∧ w ∈ adjOf g y := by
  obtain ⟨hh, _, hc⟩ := h
  rw [List.chain'_append] at hc
  obtain ⟨hc1, _, hcross⟩ := hc
  cases hy : q1.getLast? with
  | none => exact absurd (List.getLast?_eq_none_iff.1 hy) hne
  | some y =>
    refine ⟨y, rfl, ⟨?_, hy, hc1⟩, ?_⟩
    · rw [List.head?_append_of_ne_nil q1 hne] at hh
      exact hh
    · exact hcross y (by rw [hy]; rfl) w (by rfl)

/-- The first node outside `V` along a list that starts inside `V` and
ends outside it. -/
lemma exists_frontier_split (V : List String) :
    ∀ (q : List String) (s z : String), q.head? = some s → s ∈ V →
      q.getLast? = some z → z ∉ V →
      ∃ q1 w q2, q = q1 ++ w :: q2 ∧ w ∉ V ∧ q1 ≠ [] ∧ ∀ u ∈ q1, u ∈ V := by
  intro q
  induction q with
  | nil => intro s z hh _ _ _; exact Option.noConfusion hh
  | cons a t ih =>
    intro s z hh hs hl hz
    have has : a = s := by simpa using hh
    cases t with
    | nil =>
      have haz : a = z := by simpa using hl
      exact absurd (by rw [← haz, has]; exact hs) hz
    | cons b t' =>
      rw [List.getLast?_cons_cons] at hl
      by_cases hb : b ∈ V
      · obtain ⟨q1, w, q2, heq, hw, hq1, hall⟩ := ih b z rfl hb hl hz
        refine ⟨a :: q1, w, q2, by rw [List.cons_append, ← heq], hw, by simp, ?_⟩
        intro u hu
        rcases List.mem_cons.1 hu with h | h
        · rw [h, has]
          exact hs
        · exact hall u h
      · refine ⟨[a], b, t', rfl, hb, by simp, ?_⟩
        intro u hu
        rw [List.mem_singleton.1 hu, has]
        exact hs

/-- In a fully closed visited set that contains the start but not the end,
no path can reach the end. -/
lemma no_path_of_closed (g : List (String × List String)) (start endName : String)
    (visited : List String) (hstart : start ∈ visited) (hend : endName ∉ visited)
    (hclosed : ∀ y ∈ visited, ∀ w ∈ adjOf g y, w ∈ visited) :
    ∀ q, ¬ IsPath g start endName q := by
  intro q hq
  obtain ⟨q1, w, q2, heq, hw, hq1, hall⟩ :=
    exists_frontier_split visited q start endName hq.1 hstart hq.2.1 hend
  rw [heq] at hq
  obtain ⟨y, hy?, hyp, hadj⟩ := isPath_split g start endName w q1 q2 hq hq1
  have hy : y ∈ visited := hall y (List.mem_of_mem_getLast? hy?)
  exact hw (hclosed y hy w hadj)

/-! ### Expansion lemmas -/

lemma expandN_inr (endName : String) (p₀ : List String) :
    ∀ (nbs visited : List String) (queue : List (String × List String))
      (f : List String),
      expandN endName p₀ visited queue nbs = .inr f →
      endName ∈ nbs ∧ f = p₀ ++ [endName] := by
  intro nbs
  induction nbs with
  | nil =>
    intro v q f h
    exact absurd h (by simp [expandN])
  | cons nb rest ih =>
    intro v q f h
    unfold expandN at h
    by_cases hne : nb = endName
    · rw [if_pos hne] at h
      injection h with h1
      exact ⟨by rw [← hne]; exact List.mem_cons_self nb rest,
        by rw [← h1, hne]⟩
    · rw [if_neg hne] at h
      by_cases hv : nb ∈ v
      · rw [if_pos hv] at h
        obtain ⟨h1, h2⟩ := ih _ _ _ h
        exact ⟨List.mem_cons_of_mem nb h1, h2⟩
      · rw [if_neg hv] at h
        obtain ⟨h1, h2⟩ := ih _ _ _ h
        exact ⟨List.mem_cons_of_mem nb h1, h2⟩

lemma expandN_inl (endName : String) (p₀ : List String) :
    ∀ (nbs visited : List String) (queue : List (String × List String))
      (v' : List String) (q' : List (String × List String)),
      expandN endName p₀ visited queue nbs = .inl (v', q') →
      ∃ Δ : List String,
        v' = visited ++ Δ
        ∧ q' = queue ++ Δ.map (fun nb => (nb, p₀ ++ [nb]))
        ∧ (∀ d ∈ Δ, d ∉ visited)
        ∧ Δ.Nodup
        ∧ (∀ d ∈ Δ, d ∈ nbs)
        ∧ (∀ nb ∈ nbs, nb ≠ endName)
        ∧ (∀ nb ∈ nbs, nb ∈ v') := by
  intro nbs
  induction nbs with
  | nil =>
    intro v q v' q' h
    unfold expandN at h
    injection h with h1
    injection h1 with h2 h3
    refine ⟨[], by rw [h2, List.append_nil], by rw [h3]; simp, ?_, ?_, ?_, ?_, ?_⟩
      <;> simp
  | cons nb rest ih =>
    intro v q v' q' h
    unfold expandN at h
    by_cases hne : nb = endName
    · rw [if_pos hne] at h
      exact absurd h (by simp)
    · rw [if_neg hne] at h
      by_cases hv : nb ∈ v
      · rw [if_pos hv] at h
        obtain ⟨Δ, h1, h2, h3, h4, h5, h6, h7⟩ := ih _ _ _ _ h
        refine ⟨Δ, h1, h2, h3, h4, ?_, ?_, ?_⟩
        · exact fun d hd => List.mem_cons_of_mem nb (h5 d hd)
        · intro x hx
          rcases List.mem_cons.1 hx with hx | hx
          · rw [hx]; exact hne
          · exact h6 x hx
        · intro x hx
          rcases List.mem_cons.1 hx with hx | hx
          · rw [hx, h1]; exact List.mem_append_left Δ hv
          · exact h7 x hx
      · rw [if_neg hv] at h
        obtain ⟨Δr, h1, h2, h3, h4, h5, h6, h7⟩ := ih _ _ _ _ h
        refine ⟨nb :: Δr, ?_, ?_, ?_, ?_, ?_, ?_, ?_⟩
        · rw [h1, List.append_assoc]
          rfl
        · rw [h2, List.append_assoc]
          rfl
        · intro d hd
          rcases List.mem_cons.1 hd with hd | hd
          · rw [hd]; exact hv
          · intro hdv
            exact h3 d hd (List.mem_append_left [nb] hdv)
        · refine List.nodup_cons.2 ⟨?_, h4⟩
          intro hnb
          exact h3 nb hnb (List.mem_append_right v (List.mem_singleton.2 rfl))
        · intro d hd
          rcases List.mem_cons.1 hd with hd | hd
          · rw [hd]; exact List.mem_cons_self nb rest
          · exact List.mem_cons_of_mem nb (h5 d hd)
        · intro x hx
          rcases List.mem_cons.1 hx with hx | hx
          · rw [hx]; exact hne
          · exact h6 x hx
        · intro x hx
          rcases List.mem_cons.1 hx with hx | hx
          · rw [hx, h1, List.append_assoc]
            exact List.mem_append_right v (List.mem_append_left Δr
              (List.mem_singleton.2 rfl))
          · exact h7 x hx

/-! ### Measure lemmas -/

lemma count_filter_not_mem_snoc (keys : List String) (hnd : keys.Nodup)
    (v : List String) (x : String) (hx : x ∈ keys) (hxv : x ∉ v) :
    (keys.filter (fun k => decide (k ∉ v ++ [x]))).length + 1
      = (keys.filter (fun k => decide (k ∉ v))).length := by
  induction keys with
  | nil => simp at hx
  | cons k t ih =>
    obtain ⟨hk, ht⟩ := List.nodup_cons.1 hnd
    by_cases hkx : k = x
    · have hxt : x ∉ t := hkx ▸ hk
      have hkin : k ∈ v ++ [x] :=
        List.mem_append_right v (List.mem_singleton.2 hkx)
      have hkout : k ∉ v := hkx ▸ hxv
      rw [List.filter_cons, List.filter_cons,
        if_neg (by simp [hkin]), if_pos (by simpa using hkout)]
      have hcong : t.filter (fun u => decide (u ∉ v ++ [x]))
          = t.filter (fun u => decide (u ∉ v)) := by
        refine List.filter_congr ?_
        intro u hu
        have hux : u ≠ x := fun huv => hxt (huv ▸ hu)
        simp only [List.mem_append, List.mem_singleton, decide_eq_decide]
        constructor
        · intro h1 h2
          exact h1 (Or.inl h2)
        · rintro h1 (h2 | h2)
          · exact h1 h2
          · exact hux h2
      rw [hcong]
      simp
    · have hxeq : (decide (k ∉ v ++ [x])) = (decide (k ∉ v)) := by
        simp only [List.mem_append, List.mem_singleton, decide_eq_decide]
        constructor
        · intro h1 h2
          exact h1 (Or.inl h2)
        · rintro h1 (h2 | h2)
          · exact h1 h2
          · exact hkx h2
      have hxt : x ∈ t := by
        rcases List.mem_cons.1 hx with h | h
        · exact absurd h.symm hkx
        · exact h
      rw [List.filter_cons, List.filter_cons, hxeq]
      by_cases hko : k ∉ v
      · rw [if_pos (by simpa using hko), if_pos (by simpa using hko)]
        simp only [List.length_cons]
        rw [← ih ht hxt]
      · rw [if_neg (by simpa using hko), if_neg (by simpa using hko)]
        exact ih ht hxt

lemma unvisCount_append (g : List (String × List String))
    (hknd : (g.map Prod.fst).Nodup) :
    ∀ (Δ v : List String), (∀ d ∈ Δ, d ∉ v) → Δ.Nodup →
      (∀ d ∈ Δ, d ∈ g.map Prod.fst) →
      unvisCount g (v ++ Δ) + Δ.length = unvisCount g v := by
  intro Δ
  induction Δ with
  | nil =>
    intro v _ _ _
    rw [List.append_nil]
    simp
  | cons d Δr ih =>
    intro v hfresh hnd hkeys
    obtain ⟨hd, hΔnd⟩ := List.nodup_cons.1 hnd
    have hstep : unvisCount g (v ++ [d]) + 1 = unvisCount g v :=
      count_filter_not_mem_snoc (g.map Prod.fst) hknd v d
        (hkeys d (List.mem_cons_self d Δr)) (hfresh d (List.mem_cons_self d Δr))
    have hrec : unvisCount g ((v ++ [d]) ++ Δr) + Δr.length
        = unvisCount g (v ++ [d]) := by
      refine ih (v ++ [d]) ?_ hΔnd (fun x hx => hkeys x (List.mem_cons_of_mem d hx))
      intro x hx
      simp only [List.mem_append, List.mem_singleton]
      rintro (h | h)
      · exact hfresh x (List.mem_cons_of_mem d hx) h
      · exact hd (h ▸ hx)
    have heq : v ++ d :: Δr = (v ++ [d]) ++ Δr := by
      rw [List.append_assoc]
      rfl
    rw [heq, List.length_cons]
    omega

lemma unvisCount_le (g : List (String × List String)) (v : List String) :
    unvisCount g v ≤ g.length := by
  unfold unvisCount
  calc ((g.map Prod.fst).filter _).length ≤ (g.map Prod.fst).length :=
        List.length_filter_le _ _
    _ = g.length := List.length_map _ _

lemma adjOf_subset_keys (g : List (String × List String)) (hwf : WFGraph g)
    (x : String) : ∀ y ∈ adjOf g x, y ∈ g.map Prod.fst := by
  intro y hy
  unfold adjOf at hy
  cases hfind : g.find? (fun p => decide (p.1 = x)) with
  | none =>
    rw [hfind] at hy
    simp at hy
  | some p =>
    rw [hfind] at hy
    simp only [Option.map_some', Option.getD_some] at hy
    have hp := List.mem_of_find?_eq_some hfind
    have hk := hwf p hp y hy
    unfold hasKey at hk
    rcases List.any_eq_true.1 hk with ⟨q, hq, hqy⟩
    simp only [decide_eq_true_eq] at hqy
    exact List.mem_map.2 ⟨q, hq, hqy⟩

/-! ### The BFS loop invariant -/

/-- The invariant of the BFS loop relating the queue and the visited set:
queued entries carry valid start-rooted paths to visited nodes; end is
undiscovered; every fully processed node has all neighbors visited; queue
path lengths are nondecreasing and spread over at most two consecutive
values; queued paths are globally shortest; and any path to an undiscovered
node is strictly longer than the queue head's path. -/
structure BfsInv (g : List (String × List String)) (start endName : String)
    (queue : List (String × List String)) (visited : List String) : Prop where
  startMem : start ∈ visited
  endNot : endName ∉ visited
  paths : ∀ pr ∈ queue, IsPath g start pr.1 pr.2
  nodesVisited : ∀ pr ∈ queue, pr.1 ∈ visited
  closed : ∀ y ∈ visited, (∀ pr ∈ queue, pr.1 ≠ y) → ∀ w ∈ adjOf g y, w ∈ visited
  sorted : (queue.map (fun pr => pr.2.length)).Pairwise (· ≤ ·)
  within1 : ∀ pr ∈ queue, ∀ pr' ∈ queue, pr.2.length ≤ pr'.2.length + 1
  minimal : ∀ pr ∈ queue, ∀ q, IsPath g start pr.1 q → pr.2.length ≤ q.length
  frontier : ∀ z, z ∉ visited → ∀ q, IsPath g start z q →
      ∀ pr₀, queue.head? = some pr₀ → pr₀.2.length + 1 ≤ q.length

lemma sorted_head_le (queue : List (String × List String))
    (hs : (queue.map (fun pr => pr.2.length)).Pairwise (· ≤ ·))
    (pr₀ : String × List String) (h : queue.head? = some pr₀) :
    ∀ pr ∈ queue, pr₀.2.length ≤ pr.2.length := by
  cases queue with
  | nil => exact absurd h (by simp)
  | cons a t =>
    have ha : a = pr₀ := by simpa using h
    subst ha
    intro pr hpr
    rcases List.mem_cons.1 hpr with h | h
    · rw [h]
    · rw [List.map_cons] at hs
      exact (List.pairwise_cons.1 hs).1 pr.2.length
        (List.mem_map.2 ⟨pr, h, rfl⟩)

lemma pairwise_le_const_map (Δ : List String) (c : Nat) :
    (Δ.map (fun _ => c)).Pairwise (fun a b => a ≤ b) := by
  induction Δ with
  | nil => simp
  | cons d Δr ih =>
    rw [List.map_cons]
    refine List.pairwise_cons.2 ⟨?_, ih⟩
    intro b hb
    rcases List.mem_map.1 hb with ⟨_, _, hbe⟩
    rw [← hbe]

/-- The invariant at BFS initialization (`queue = [(start, [start])]`,
`visited = {start}`). -/
lemma inv_init (g : List (String × List String)) (start endName : String)
    (hne : start ≠ endName) :
    BfsInv g start endName [(start, [start])] [start] := by
  refine ⟨?_, ?_, ?_, ?_, ?_, ?_, ?_, ?_, ?_⟩
  · exact List.mem_singleton.2 rfl
  · intro h
    exact hne ((List.mem_singleton.1 h).symm)
  · intro pr hpr
    rw [List.mem_singleton.1 hpr]
    exact isPath_singleton g start
  · intro pr hpr
    rw [List.mem_singleton.1 hpr]
    exact List.mem_singleton.2 rfl
  · intro y hy hnq w _
    exact absurd (List.mem_singleton.1 hy).symm
      (hnq (start, [start]) (List.mem_singleton.2 rfl))
  · simp
  · intro pr hpr pr' hpr'
    rw [List.mem_singleton.1 hpr, List.mem_singleton.1 hpr']
    simp
  · intro pr hpr q hq
    rw [List.mem_singleton.1 hpr]
    simpa using hq.one_le_length
  · intro z hz q hq pr₀ hpr₀
    have hzs : start ≠ z := fun h => hz (List.mem_singleton.2 h.symm)
    have h2 := hq.two_le_length hzs
    have : pr₀ = (start, [start]) := by simpa using hpr₀.symm
    rw [this]
    simpa using h2

/-- One BFS iteration preserves the invariant: pop `(cur, p₀)`, and
(given the neighbor expansion did not meet the end) append the newly
discovered neighbors `Δ` to the visited set and, paired with their
extended paths, to the queue. -/
lemma inv_step (g : List (String × List String)) (start endName cur : String)
    (p₀ : List String) (rest : List (String × List String))
    (visited Δ : List String)
    (hinv : BfsInv g start endName ((cur, p₀) :: rest) visited)
    (hfresh : ∀ d ∈ Δ, d ∉ visited)
    (hΔnbs : ∀ d ∈ Δ, d ∈ adjOf g cur)
    (hne : ∀ nb ∈ adjOf g cur, nb ≠ endName)
    (hcover : ∀ nb ∈ adjOf g cur, nb ∈ visited ++ Δ) :
    BfsInv g start endName (rest ++ Δ.map (fun nb => (nb, p₀ ++ [nb])))
      (visited ++ Δ) := by
  have hcurp : IsPath g start cur p₀ :=
    hinv.paths (cur, p₀) (List.mem_cons_self _ _)
  have hheadle : ∀ pr ∈ (cur, p₀) :: rest, p₀.length ≤ pr.2.length :=
    sorted_head_le _ hinv.sorted (cur, p₀) rfl
  have hpushed : ∀ pr ∈ Δ.map (fun nb => (nb, p₀ ++ [nb])),
      ∃ nb ∈ Δ, pr = (nb, p₀ ++ [nb]) := by
    intro pr hpr
    rcases List.mem_map.1 hpr with ⟨nb, hnb, hpre⟩
    exact ⟨nb, hnb, hpre.symm⟩
  have hstart' : start ∈ visited ++ Δ := List.mem_append_left Δ hinv.startMem
  have hend' : endName ∉ visited ++ Δ := by
    intro h
    rcases List.mem_append.1 h with h | h
    · exact hinv.endNot h
    · exact hne endName (hΔnbs endName h) rfl
  have hpaths' : ∀ pr ∈ rest ++ Δ.map (fun nb => (nb, p₀ ++ [nb])),
      IsPath g start pr.1 pr.2 := by
    intro pr hpr
    rcases List.mem_append.1 hpr with h | h
    · exact hinv.paths pr (List.mem_cons_of_mem _ h)
    · obtain ⟨nb, hnb, hpre⟩ := hpushed pr h
      rw [hpre]
      exact hcurp.snoc (hΔnbs nb hnb)
  have hnodes' : ∀ pr ∈ rest ++ Δ.map (fun nb => (nb, p₀ ++ [nb])),
      pr.1 ∈ visited ++ Δ := by
    intro pr hpr
    rcases List.mem_append.1 hpr with h | h
    · exact List.mem_append_left Δ (hinv.nodesVisited pr (List.mem_cons_of_mem _ h))
    · obtain ⟨nb, hnb, hpre⟩ := hpushed pr h
      rw [hpre]
      exact List.mem_append_right visited hnb
  have hclosed' : ∀ y ∈ visited ++ Δ,
      (∀ pr ∈ rest ++ Δ.map (fun nb => (nb, p₀ ++ [nb])), pr.1 ≠ y) →
      ∀ w ∈ adjOf g y, w ∈ visited ++ Δ := by
    intro y hy hnq w hw
    rcases List.mem_append.1 hy with hyv | hyΔ
    · by_cases hyc : y = cur
      · exact hcover w (hyc ▸ hw)
      · have hall : ∀ pr ∈ (cur, p₀) :: rest, pr.1 ≠ y := by
          intro pr hpr
          rcases List.mem_cons.1 hpr with h | h
          · rw [h]
            exact fun hc => hyc hc.symm
          · exact hnq pr (List.mem_append_left _ h)
        exact List.mem_append_left Δ (hinv.closed y hyv hall w hw)
    · exact absurd rfl
        (hnq (y, p₀ ++ [y])
          (List.mem_append_right rest (List.mem_map.2 ⟨y, hyΔ, rfl⟩)))
  have hsorted' : ((rest ++ Δ.map (fun nb => (nb, p₀ ++ [nb]))).map
      (fun pr => pr.2.length)).Pairwise (· ≤ ·) := by
    rw [List.map_append]
    refine List.pairwise_append.2 ⟨?_, ?_, ?_⟩
    · have := hinv.sorted
      rw [List.map_cons] at this
      exact (List.pairwise_cons.1 this).2
    · have hmm : (Δ.map (fun nb => (nb, p₀ ++ [nb]))).map (fun pr => pr.2.length)
          = Δ.map (fun _ => p₀.length + 1) := by
        rw [List.map_map]
        exact List.map_congr_left (fun d _ => by simp)
      rw [hmm]
      exact pairwise_le_const_map Δ (p₀.length + 1)
    · intro a ha b hb
      rcases List.mem_map.1 ha with ⟨pr, hpr, hpra⟩
      rcases List.mem_map.1 hb with ⟨pr', hpr', hprb⟩
      obtain ⟨nb, _, hpre⟩ := hpushed pr' hpr'
      rw [← hpra, ← hprb, hpre]
      simp only [List.length_append, List.length_singleton]
      exact hinv.within1 pr (List.mem_cons_of_mem _ hpr) (cur, p₀)
        (List.mem_cons_self _ _)
  have hwithin1' : ∀ pr ∈ rest ++ Δ.map (fun nb => (nb, p₀ ++ [nb])),
      ∀ pr' ∈ rest ++ Δ.map (fun nb => (nb, p₀ ++ [nb])),
      pr.2.length ≤ pr'.2.length + 1 := by
    intro pr hpr pr' hpr'
    rcases List.mem_append.1 hpr with h | h <;>
      rcases List.mem_append.1 hpr' with h' | h'
    · exact hinv.within1 pr (List.mem_cons_of_mem _ h) pr'
        (List.mem_cons_of_mem _ h')
    · obtain ⟨nb, _, hpre⟩ := hpushed pr' h'
      rw [hpre]
      simp only [List.length_append, List.length_singleton]
      have hple : pr.2.length ≤ p₀.length + 1 :=
        hinv.within1 pr (List.mem_cons_of_mem _ h) (cur, p₀)
          (List.mem_cons_self _ _)
      omega
    · obtain ⟨nb, _, hpre⟩ := hpushed pr h
      rw [hpre]
      simp only [List.length_append, List.length_singleton]
      have := hheadle pr' (List.mem_cons_of_mem _ h')
      omega
    · obtain ⟨nb, _, hpre⟩ := hpushed pr h
      obtain ⟨nb', _, hpre'⟩ := hpushed pr' h'
      rw [hpre, hpre']
      simp only [List.length_append, List.length_singleton]
      omega
  have hminimal' : ∀ pr ∈ rest ++ Δ.map (fun nb => (nb, p₀ ++ [nb])),
      ∀ q, IsPath g start pr.1 q → pr.2.length ≤ q.length := by
    intro pr hpr q hq
    rcases List.mem_append.1 hpr with h | h
    · exact hinv.minimal pr (List.mem_cons_of_mem _ h) q hq
    · obtain ⟨nb, hnb, hpre⟩ := hpushed pr h
      subst hpre
      simp only at hq
      have hfr : p₀.length + 1 ≤ q.length :=
        hinv.frontier nb (hfresh nb hnb) q hq (cur, p₀) rfl
      simp only [List.length_append, List.length_singleton]
      omega
  have hfrontier' : ∀ z, z ∉ visited ++ Δ →
      ∀ q, IsPath g start z q →
      ∀ pr₀, (rest ++ Δ.map (fun nb => (nb, p₀ ++ [nb]))).head? = some pr₀ →
      pr₀.2.length + 1 ≤ q.length := by
    intro z hz q hq pr₀' hhead'
    obtain ⟨q1, w, q2, heq, hw, hq1, hall⟩ :=
      exists_frontier_split (visited ++ Δ) q start z hq.1 hstart' hq.2.1 hz
    rw [heq] at hq
    obtain ⟨y, hy?, hyp, hadj⟩ := isPath_split g start z w q1 q2 hq hq1
    have hyv' : y ∈ visited ++ Δ := hall y (List.mem_of_mem_getLast? hy?)
    have hex : ∃ pr ∈ rest ++ Δ.map (fun nb => (nb, p₀ ++ [nb])), pr.1 = y := by
      by_contra hc
      push_neg at hc
      exact hw (hclosed' y hyv' hc w hadj)
    obtain ⟨pr_y, hpr_y, hpr_y1⟩ := hex
    have hq1y : IsPath g start pr_y.1 q1 := by rw [hpr_y1]; exact hyp
    have hmin := hminimal' pr_y hpr_y q1 hq1y
    have hhd := sorted_head_le _ hsorted' pr₀' hhead' pr_y hpr_y
    have hlen : q.length = q1.length + 1 + q2.length := by
      rw [heq]
      simp [List.length_append]
      omega
    omega
  exact ⟨hstart', hend', hpaths', hnodes', hclosed', hsorted', hwithin1',
    hminimal', hfrontier'⟩

/-- The BFS loop, run with enough fuel from any state satisfying the
invariant, returns only shortest valid paths, and returns `none` only when
no path exists. -/
lemma bfsLoop_spec (g : List (String × List String)) (start endName : String)
    (hwf : WFGraph g) (hknd : (g.map Prod.fst).Nodup) :
    ∀ (fuel : Nat) (queue : List (String × List String)) (visited : List String),
      BfsInv g start endName queue visited →
      queue.length + 2 * unvisCount g visited ≤ fuel →
      (∀ p, bfsLoop g endName fuel queue visited = some p →
          IsPath g start endName p
            ∧ ∀ q, IsPath g start endName q → p.length ≤ q.length)
      ∧ (bfsLoop g endName fuel queue visited = none →
          ∀ q, ¬ IsPath g start endName q) := by
  intro fuel
  induction fuel with
  | zero =>
    intro queue visited hinv hμ
    have hq0 : queue = [] := by
      have : queue.length = 0 := by omega
      exact List.length_eq_zero.1 this
    constructor
    · intro p hp
      exact absurd hp (by simp [bfsLoop])
    · intro _ q
      refine no_path_of_closed g start endName visited hinv.startMem hinv.endNot
        ?_ q
      intro y hy w hw
      refine hinv.closed y hy ?_ w hw
      intro pr hpr
      rw [hq0] at hpr
      exact absurd hpr (List.not_mem_nil pr)
  | succ fuel ih =>
    intro queue visited hinv hμ
    cases queue with
    | nil =>
      constructor
      · intro p hp
        exact absurd hp (by simp [bfsLoop])
      · intro _ q
        refine no_path_of_closed g start endName visited hinv.startMem
          hinv.endNot ?_ q
        intro y hy w hw
        exact hinv.closed y hy (fun pr hpr => absurd hpr (List.not_mem_nil pr))
          w hw
    | cons hd rest =>
      obtain ⟨cur, p₀⟩ := hd
      cases hexp : expandN endName p₀ visited rest (adjOf g cur) with
      | inr f =>
        have hred : bfsLoop g endName (fuel + 1) ((cur, p₀) :: rest) visited
            = some f := by
          unfold bfsLoop
          rw [hexp]
        obtain ⟨hin, hfeq⟩ :=
          expandN_inr endName p₀ (adjOf g cur) visited rest f hexp
        constructor
        · intro p hp
          rw [hred] at hp
          injection hp with hp
          subst hp
          subst hfeq
          constructor
          · exact (hinv.paths (cur, p₀) (List.mem_cons_self _ _)).snoc hin
          · intro q hq
            have hfr : p₀.length + 1 ≤ q.length :=
              hinv.frontier endName hinv.endNot q hq (cur, p₀) rfl
            simp only [List.length_append, List.length_singleton]
            omega
        · intro hnone
          rw [hred] at hnone
          exact absurd hnone (by simp)
      | inl pr' =>
        obtain ⟨v', q'⟩ := pr'
        have hred : bfsLoop g endName (fuel + 1) ((cur, p₀) :: rest) visited
            = (match expandN endName p₀ visited rest (adjOf g cur) with
               | .inr found => some found
               | .inl (visited', queue') =>
                   bfsLoop g endName fuel queue' visited') := rfl
        rw [hexp] at hred
        obtain ⟨Δ, h1, h2, h3, h4, h5, h6, h7⟩ :=
          expandN_inl endName p₀ (adjOf g cur) visited rest v' q' hexp
        subst h1
        subst h2
        have hinv' := inv_step g start endName cur p₀ rest visited Δ hinv h3 h5
          h6 h7
        have hcount : unvisCount g (visited ++ Δ) + Δ.length
            = unvisCount g visited :=
          unvisCount_append g hknd Δ visited h3 h4
            (fun d hd => adjOf_subset_keys g hwf cur d (h5 d hd))
        have hμ' : (rest ++ Δ.map (fun nb => (nb, p₀ ++ [nb]))).length
            + 2 * unvisCount g (visited ++ Δ) ≤ fuel := by
          rw [List.length_append, List.length_map]
          simp only [List.length_cons] at hμ
          omega
        rw [hred]
        exact ih (rest ++ Δ.map (fun nb => (nb, p₀ ++ [nb]))) (visited ++ Δ)
          hinv' hμ'

/-- The claim's scenario world: A–B–C–D in a line (bidirectional edges, as
built by `connect_locations`). -/
def lineGraph : List (String × List String) :=
  [("A", ["B"]), ("B", ["A", "C"]), ("C", ["B", "D"]), ("D", ["C"])]

/-- Claim C9.  `find_path_between_locations` returns `None` when either
location is unknown; any path it returns is a valid path from start to end
that is at least as short as every path between them (breadth-first
search); it returns a path whenever the endpoints are known and connected;
and on the line world A–B–C–D it returns `[A, B, C, D]`. -/
theorem findPathBetweenLocations_bfs_correct :
    (∀ (g : List (String × List String)) (s e : String),
        (hasKey g s = false ∨ hasKey g e = false) →
        findPathBetweenLocations g s e = none)
    ∧ (∀ (g : List (String × List String)) (s e : String) (p : List String),
        WFGraph g → (g.map Prod.fst).Nodup →
        findPathBetweenLocations g s e = some p →
        IsPath g s e p ∧ ∀ q, IsPath g s e q → p.length ≤ q.length)
    ∧ (∀ (g : List (String × List String)) (s e : String),
        WFGraph g → (g.map Prod.fst).Nodup →
        hasKey g s = true → hasKey g e = true →
        (∃ q, IsPath g s e q) →
        ∃ p, findPathBetweenLocations g s e = some p)
    ∧ findPathBetweenLocations lineGraph "A" "D" = some ["A", "B", "C", "D"] := by
  have hμ₀ : ∀ (g : List (String × List String)) (s : String),
      ([(s, [s])] : List (String × List String)).length
        + 2 * unvisCount g [s] ≤ 2 * g.length + 1 := by
    intro g s
    have := unvisCount_le g [s]
    simp only [List.length_singleton]
    omega
  refine ⟨?_, ?_, ?_, by decide⟩
  · intro g s e h
    unfold findPathBetweenLocations
    rcases h with h | h <;> rw [if_pos (by simp [h])]
  · intro g s e p hwf hknd hres
    unfold findPathBetweenLocations at hres
    by_cases hks : hasKey g s = true
    · by_cases hke : hasKey g e = true
      · rw [if_neg (by simp [hks, hke])] at hres
        by_cases hse : s = e
        · rw [if_pos hse] at hres
          injection hres with hres
          subst hres
          subst hse
          exact ⟨isPath_singleton g s, fun q hq => by
            simpa using hq.one_le_length⟩
        · rw [if_neg hse] at hres
          exact (bfsLoop_spec g s e hwf hknd (2 * g.length + 1)
            [(s, [s])] [s] (inv_init g s e hse) (hμ₀ g s)).1 p hres
      · rw [if_pos (by simp [hke])] at hres
        exact absurd hres (by simp)
    · rw [if_pos (by simp [hks])] at hres
      exact absurd hres (by simp)
  · intro g s e hwf hknd hks hke ⟨q, hq⟩
    unfold findPathBetweenLocations
    rw [if_neg (by simp [hks, hke])]
    by_cases hse : s = e
    · rw [if_pos hse]
      exact ⟨[s], rfl⟩
    · rw [if_neg hse]
      cases hres : bfsLoop g e (2 * g.length + 1) [(s, [s])] [s] with
      | some p => exact ⟨p, rfl⟩
      | none =>
        exact absurd hq ((bfsLoop_spec g s e hwf hknd (2 * g.length + 1)
          [(s, [s])] [s] (inv_init g s e hse) (hμ₀ g s)).2 hres q)

/-- Witness for C9: the soundness conjunct applied to the line world —
the returned `[A, B, C, D]` is a valid path of minimal length. -/
theorem findPathBetweenLocations_bfs_correct_witness :
    (WFGraph lineGraph ∧ (lineGraph.map Prod.fst).Nodup
      ∧ findPathBetweenLocations lineGraph "A" "D" = some ["A", "B", "C", "D"])
    ∧ (IsPath lineGraph "A" "D" ["A", "B", "C", "D"]
      ∧ ∀ q, IsPath lineGraph "A" "D" q →
          (["A", "B", "C", "D"] : List String).length ≤ q.length) :=
  ⟨⟨by decide, by decide, by decide⟩,
   findPathBetweenLocations_bfs_correct.2.1 lineGraph "A" "D"
     ["A", "B", "C", "D"] (by decide) (by decide) (by decide)⟩

end GenStories
